import Mathlib

/-!
Verification of the rust-quant pricing engine against its design specification.

The numerical core of the library (the Rust extension module) is not shipped
with the Python sources, so every definition below that embeds a library
operation is modelled from the specification text, as indicated in its doc
comment.  Real-valued arithmetic models the library's floating point
computations by exact real arithmetic.
-/

open Real MeasureTheory Set

namespace RustQuant

/-! ## Definitions -/

/-- Modelled from the spec: the standard normal probability density function
of the Numeric Primitives component ("normal CDF/PDF"); the Rust
implementation is absent from the sources, so the density is the mathematical
standard normal pdf. -/
noncomputable def normalPdf (t : ℝ) : ℝ := (Real.sqrt (2 * π))⁻¹ * Real.exp (-t ^ 2 / 2)

/-- Modelled from the spec: the standard normal cumulative distribution
function N(x) of the Numeric Primitives component. -/
noncomputable def normalCdf (x : ℝ) : ℝ := ∫ t in Iic x, normalPdf t

/-- Modelled from the spec: d1 = (ln(S/K) + (r − q + σ²/2)T) / (σ√T). -/
noncomputable def bsD1 (S K T r σ q : ℝ) : ℝ :=
  (Real.log (S / K) + (r - q + σ ^ 2 / 2) * T) / (σ * Real.sqrt T)

/-- Modelled from the spec: d2 = d1 − σ√T. -/
noncomputable def bsD2 (S K T r σ q : ℝ) : ℝ := bsD1 S K T r σ q - σ * Real.sqrt T

/-- Modelled from the spec: the vanilla payoff max(±(S−K), 0), with the
call/put discriminant of the generic Option value type. -/
noncomputable def payoff (isCall : Bool) (K s : ℝ) : ℝ :=
  if isCall then max (s - K) 0 else max (K - s) 0

/-- Modelled from the spec: `EuroOption.price()`.  The Black–Scholes–Merton
closed form with continuous dividend yield; the edge cases T = 0 and σ = 0 are
guarded ("must price to the discounted/undiscounted intrinsic value rather
than producing NaN") and return the discounted intrinsic value, which at T = 0
is the plain intrinsic value max(±(S−K),0). -/
noncomputable def euroPrice (isCall : Bool) (S K T r σ q : ℝ) : ℝ :=
  if T = 0 ∨ σ = 0 then payoff isCall (K * Real.exp (-(r * T))) (S * Real.exp (-(q * T)))
  else if isCall then
    S * Real.exp (-(q * T)) * normalCdf (bsD1 S K T r σ q)
      - K * Real.exp (-(r * T)) * normalCdf (bsD2 S K T r σ q)
  else
    K * Real.exp (-(r * T)) * normalCdf (-bsD2 S K T r σ q)
      - S * Real.exp (-(q * T)) * normalCdf (-bsD1 S K T r σ q)

/-- Modelled from the spec: the OptionGreeks result record
{price, delta, gamma, vega, theta, rho}. -/
structure OptionGreeks where
  price : ℝ
  delta : ℝ
  gamma : ℝ
  vega : ℝ
  theta : ℝ
  rho : ℝ

/-- Modelled from the spec: `EuroOption.greeks()` — the BSM price and the five
Greeks of §4.1, sharing d1/d2, with the standard closed forms for theta and
rho. -/
noncomputable def euroGreeks (isCall : Bool) (S K T r σ q : ℝ) : OptionGreeks :=
  let d1 := bsD1 S K T r σ q
  let d2 := bsD2 S K T r σ q
  { price := euroPrice isCall S K T r σ q
    delta := if isCall then Real.exp (-(q * T)) * normalCdf d1
      else Real.exp (-(q * T)) * (normalCdf d1 - 1)
    gamma := Real.exp (-(q * T)) * normalPdf d1 / (S * σ * Real.sqrt T)
    vega := S * Real.exp (-(q * T)) * normalPdf d1 * Real.sqrt T
    theta := if isCall then
        -(S * Real.exp (-(q * T)) * normalPdf d1 * σ) / (2 * Real.sqrt T)
          + q * S * Real.exp (-(q * T)) * normalCdf d1
          - r * K * Real.exp (-(r * T)) * normalCdf d2
      else
        -(S * Real.exp (-(q * T)) * normalPdf d1 * σ) / (2 * Real.sqrt T)
          - q * S * Real.exp (-(q * T)) * normalCdf (-d1)
          + r * K * Real.exp (-(r * T)) * normalCdf (-d2)
    rho := if isCall then K * T * Real.exp (-(r * T)) * normalCdf d2
      else -(K * T * Real.exp (-(r * T)) * normalCdf (-d2)) }

/-! ### Binomial (Cox–Ross–Rubinstein) tree pricer -/

/-- Modelled from the spec: Δt = T/steps. -/
noncomputable def crrDt (T : ℝ) (n : Nat) : ℝ := T / n

/-- Modelled from the spec: up factor u = e^(σ√Δt). -/
noncomputable def crrU (σ T : ℝ) (n : Nat) : ℝ := Real.exp (σ * Real.sqrt (crrDt T n))

/-- Modelled from the spec: down factor d = 1/u. -/
noncomputable def crrD (σ T : ℝ) (n : Nat) : ℝ := 1 / crrU σ T n

/-- Modelled from the spec: risk-neutral probability
p = (e^((r−q)Δt) − d)/(u − d). -/
noncomputable def crrP (r q σ T : ℝ) (n : Nat) : ℝ :=
  (Real.exp ((r - q) * crrDt T n) - crrD σ T n) / (crrU σ T n - crrD σ T n)

/-- Modelled from the spec: the per-step discount factor e^(−rΔt). -/
noncomputable def crrDisc (r T : ℝ) (n : Nat) : ℝ := Real.exp (-(r * crrDt T n))

/-- Modelled from the spec: the spot prices S·u^j·d^(k−j), j = 0..k, at tree
level k. -/
noncomputable def crrSpots (S u d : ℝ) (k : Nat) : List ℝ :=
  (List.range (k + 1)).map fun j => S * u ^ j * d ^ (k - j)

/-- Modelled from the spec: one step of backward induction — each node's
expected one-step value discounted by e^(−rΔt). -/
noncomputable def stepCont (disc p : ℝ) (v : List ℝ) : List ℝ :=
  List.zipWith (fun a b => disc * ((1 - p) * a + p * b)) v v.tail

/-- Modelled from the spec: the backward-induction node values after `j` steps
back from the leaves of an n-step tree (the list holds the values at tree
level n − j); terminal values are the leaf payoffs, and in American mode each
node takes max(continuation, intrinsic). -/
noncomputable def crrValues (american isCall : Bool) (S K u d p disc : ℝ)
    (n : Nat) : Nat → List ℝ
  | 0 => (crrSpots S u d n).map (payoff isCall K)
  | j + 1 =>
    let cont := stepCont disc p (crrValues american isCall S K u d p disc n j)
    if american then
      List.zipWith max ((crrSpots S u d (n - (j + 1))).map (payoff isCall K)) cont
    else cont

/-- Modelled from the spec: `price()` of the Binomial Tree Pricer — the root
value of the backward induction; `american := false` evaluates the same tree
without early exercise (the European tree price, used as the comparison
reference). -/
noncomputable def binomPrice (american isCall : Bool) (S K T r σ q : ℝ) (n : Nat) : ℝ :=
  (crrValues american isCall S K (crrU σ T n) (crrD σ T n) (crrP r q σ T n)
    (crrDisc r T n) n n).headD 0

/-- Modelled from the spec: `AmericanOption.price()` (binomial tree with early
exercise). -/
noncomputable def americanPrice (isCall : Bool) (S K T r σ q : ℝ) (n : Nat) : ℝ :=
  binomPrice true isCall S K T r σ q n

/-- Modelled from the spec: `AmericanOption.greeks()` — delta and gamma reuse
the tree node values one and two steps from the root; vega, theta and rho use
central finite-difference bumps of relative size 1e-4. -/
noncomputable def americanGreeks (isCall : Bool) (S K T r σ q : ℝ) (n : Nat) : OptionGreeks :=
  let u := crrU σ T n
  let d := crrD σ T n
  let p := crrP r q σ T n
  let disc := crrDisc r T n
  let lvl1 := crrValues true isCall S K u d p disc n (n - 1)
  let lvl2 := crrValues true isCall S K u d p disc n (n - 2)
  let hv := σ * (1 / 10000)
  let ht := T * (1 / 10000)
  let hr := (1 : ℝ) / 10000
  { price := americanPrice isCall S K T r σ q n
    delta := (lvl1.getD 1 0 - lvl1.getD 0 0) / (S * u - S * d)
    gamma := ((lvl2.getD 2 0 - lvl2.getD 1 0) / (S * u ^ 2 - S)
        - (lvl2.getD 1 0 - lvl2.getD 0 0) / (S - S * d ^ 2)) / ((S * u ^ 2 - S * d ^ 2) / 2)
    vega := (americanPrice isCall S K T r (σ + hv) q n
        - americanPrice isCall S K T r (σ - hv) q n) / (2 * hv)
    theta := -((americanPrice isCall S K (T + ht) r σ q n
        - americanPrice isCall S K (T - ht) r σ q n) / (2 * ht))
    rho := (americanPrice isCall S K T (r + hr) σ q n
        - americanPrice isCall S K T (r - hr) σ q n) / (2 * hr) }

/-! ### Batch evaluation plumbing -/

/-- Modelled from the spec: grouping of a batch into fixed-width lanes
("internally they group elements into fixed-width lanes for vectorized
evaluation"); fuel-based structural recursion. -/
def chunksAux {α : Type*} (w : Nat) : Nat → List α → List (List α)
  | 0, _ => []
  | _, [] => []
  | fuel + 1, l => l.take w :: chunksAux w fuel (l.drop w)

/-- Modelled from the spec: the lanes of a batch. -/
def chunks {α : Type*} (w : Nat) (l : List α) : List (List α) := chunksAux w l.length l

/-- Modelled from the spec: the fixed lane width used by the vectorized batch
kernels. -/
def laneWidth : Nat := 8

/-- Modelled from the spec: evaluation of a scalar kernel over the index range
of a batch, in fixed-width lanes, output order identical to input order. -/
def laneMap {α : Type*} (f : Nat → α) (n : Nat) : List α :=
  ((chunks laneWidth (List.range n)).map fun c => c.map f).flatten

/-- Modelled from the spec: the descriptive message of the batch
length-mismatch input-validation error. -/
def lengthErrMsg : String := "all input arrays must have the same length"

/-- Modelled from the spec: `EuroOption.price_many` — validates that all
parameter arrays have equal length (failing with a length-mismatch error
before producing any output), then prices every element with the scalar
kernel in lanes, output order identical to input order. -/
noncomputable def euroPriceMany (isCall : Bool)
    (spots strikes times rates vols qs : List ℝ) : Except String (List ℝ) :=
  if strikes.length = spots.length ∧ times.length = spots.length
      ∧ rates.length = spots.length ∧ vols.length = spots.length
      ∧ qs.length = spots.length then
    .ok (laneMap (fun i => euroPrice isCall (spots.getD i 0) (strikes.getD i 0)
      (times.getD i 0) (rates.getD i 0) (vols.getD i 0) (qs.getD i 0)) spots.length)
  else .error lengthErrMsg

/-- Modelled from the spec: `EuroOption.greeks_many` — same validation and lane
layout as `price_many`, returning six parallel sequences. -/
noncomputable def euroGreeksMany (isCall : Bool)
    (spots strikes times rates vols qs : List ℝ) :
    Except String (List ℝ × List ℝ × List ℝ × List ℝ × List ℝ × List ℝ) :=
  if strikes.length = spots.length ∧ times.length = spots.length
      ∧ rates.length = spots.length ∧ vols.length = spots.length
      ∧ qs.length = spots.length then
    let gs := laneMap (fun i => euroGreeks isCall (spots.getD i 0) (strikes.getD i 0)
      (times.getD i 0) (rates.getD i 0) (vols.getD i 0) (qs.getD i 0)) spots.length
    .ok (gs.map (·.price), gs.map (·.delta), gs.map (·.gamma),
      gs.map (·.vega), gs.map (·.theta), gs.map (·.rho))
  else .error lengthErrMsg

/-- Modelled from the spec: `AmericanOption.price_many` — parallel parameter
arrays including per-instrument dividend yield and a shared step count;
length mismatches fail with a descriptive error before any output. -/
noncomputable def americanPriceMany (isCall : Bool)
    (spots strikes times rates vols qs : List ℝ) (steps : Nat) : Except String (List ℝ) :=
  if strikes.length = spots.length ∧ times.length = spots.length
      ∧ rates.length = spots.length ∧ vols.length = spots.length
      ∧ qs.length = spots.length then
    .ok (laneMap (fun i => americanPrice isCall (spots.getD i 0) (strikes.getD i 0)
      (times.getD i 0) (rates.getD i 0) (vols.getD i 0) (qs.getD i 0) steps) spots.length)
  else .error lengthErrMsg

/-- Modelled from the spec: `AmericanOption.greeks_many` — same contract as the
analytic pricer's batch Greeks, with a shared step count. -/
noncomputable def americanGreeksMany (isCall : Bool)
    (spots strikes times rates vols qs : List ℝ) (steps : Nat) :
    Except String (List ℝ × List ℝ × List ℝ × List ℝ × List ℝ × List ℝ) :=
  if strikes.length = spots.length ∧ times.length = spots.length
      ∧ rates.length = spots.length ∧ vols.length = spots.length
      ∧ qs.length = spots.length then
    let gs := laneMap (fun i => americanGreeks isCall (spots.getD i 0) (strikes.getD i 0)
      (times.getD i 0) (rates.getD i 0) (vols.getD i 0) (qs.getD i 0) steps) spots.length
    .ok (gs.map (·.price), gs.map (·.delta), gs.map (·.gamma),
      gs.map (·.vega), gs.map (·.theta), gs.map (·.rho))
  else .error lengthErrMsg

/-! ### Yield curve engine -/

/-- Modelled from the spec: the interpolation-method tag
(`linear` | `log_linear` | `cubic`). -/
inductive InterpMethod
  | linear
  | logLinear
  | cubic

/-- Modelled from the spec: a market Security — maturity, price, face value
(default 100) and optional coupon data (zero-coupon when absent). -/
structure Security where
  maturity : ℝ
  price : ℝ
  faceValue : ℝ := 100
  couponRate : Option ℝ := none
  frequency : Nat := 1

/-- Modelled from the spec: a ZeroCouponCurve — the ordered (maturity,
discount factor) knots plus the interpolation-method tag. -/
structure ZeroCouponCurve where
  knots : List (ℝ × ℝ)
  method : InterpMethod

/-- Modelled from the spec: one row (sub-, main-, super-diagonal, rhs) of the
natural-cubic-spline tridiagonal system for an interior knot. -/
noncomputable def splineRows : List (ℝ × ℝ) → List (ℝ × ℝ × ℝ × ℝ)
  | (t0, y0) :: rest@((t1, y1) :: (t2, y2) :: _) =>
    let h0 := t1 - t0
    let h1 := t2 - t1
    (h0 / 6, (h0 + h1) / 3, h1 / 6, (y2 - y1) / h1 - (y1 - y0) / h0)
      :: splineRows rest
  | _ => []

/-- Modelled from the spec: the forward-elimination sweep of the tridiagonal
(Thomas) solver of the Numeric Primitives component. -/
noncomputable def thomasFwd : List (ℝ × ℝ × ℝ × ℝ) → ℝ → ℝ → List (ℝ × ℝ)
  | [], _, _ => []
  | (a, b, c, d) :: rest, cp, dp =>
    let den := b - a * cp
    let c' := c / den
    let d' := (d - a * dp) / den
    (c', d') :: thomasFwd rest c' d'

/-- Modelled from the spec: the back-substitution sweep of the tridiagonal
solver (input reversed). -/
noncomputable def thomasBackAux : List (ℝ × ℝ) → ℝ → List ℝ
  | [], _ => []
  | (c, d) :: rest, xnext =>
    let x := d - c * xnext
    x :: thomasBackAux rest x

/-- Modelled from the spec: the tridiagonal solver. -/
noncomputable def thomasSolve (rows : List (ℝ × ℝ × ℝ × ℝ)) : List ℝ :=
  (thomasBackAux (thomasFwd rows 0 0).reverse 0).reverse

/-- Modelled from the spec: the natural-cubic-spline second derivatives at the
knots (zero at both ends). -/
noncomputable def splineMs (ks : List (ℝ × ℝ)) : List ℝ :=
  0 :: (thomasSolve (splineRows ks) ++ [0])

/-- Modelled from the spec: the curve knots augmented with the implicit
DF(0) ≡ 1 knot and, for the cubic method, the spline second derivatives
(zero for the other methods). -/
noncomputable def knotTriples (c : ZeroCouponCurve) : List (ℝ × ℝ × ℝ) :=
  let aug := ((0 : ℝ), (1 : ℝ)) :: c.knots
  let ms := match c.method with
    | .cubic => splineMs aug
    | _ => List.replicate aug.length 0
  (aug.zip ms).map fun kv => (kv.1.1, kv.1.2, kv.2)

/-- Modelled from the spec: interpolation between two bracketing knots, per
method — `linear` on the discount factors, `log_linear` on their logarithms,
`cubic` by the natural cubic spline segment. -/
noncomputable def interpPair (m : InterpMethod) (a b : ℝ × ℝ × ℝ) (t : ℝ) : ℝ :=
  match m with
  | .linear => a.2.1 + (b.2.1 - a.2.1) * (t - a.1) / (b.1 - a.1)
  | .logLinear =>
    Real.exp (Real.log a.2.1 + (Real.log b.2.1 - Real.log a.2.1) * (t - a.1) / (b.1 - a.1))
  | .cubic =>
    let h := b.1 - a.1
    a.2.2 * (b.1 - t) ^ 3 / (6 * h) + b.2.2 * (t - a.1) ^ 3 / (6 * h)
      + (a.2.1 - a.2.2 * h ^ 2 / 6) * ((b.1 - t) / h)
      + (b.2.1 - b.2.2 * h ^ 2 / 6) * ((t - a.1) / h)

/-- Modelled from the spec: the curve lookup walk — an exact knot match
returns the stored value, a bracketed maturity is interpolated per the
configured method, and a maturity beyond the last knot is extrapolated at the
flat zero rate of the last knot (DF(t) = exp(−r_last·t)). -/
noncomputable def curveEval (m : InterpMethod) : (ℝ × ℝ × ℝ) → ℝ → List (ℝ × ℝ × ℝ) → ℝ
  | p, t, [] => Real.exp (-(-Real.log p.2.1 / p.1) * t)
  | p, t, k :: rest =>
    if t = k.1 then k.2.1
    else if t < k.1 then interpPair m p k t
    else curveEval m k t rest

/-- Modelled from the spec: `ZeroCouponCurve.discount_factor(t)` — negative
maturities and empty curves fail; t = 0 returns exactly 1.0; otherwise the
lookup walk is used. -/
noncomputable def discountFactor (c : ZeroCouponCurve) (t : ℝ) : Except String ℝ :=
  if c.knots.isEmpty then .error "cannot compute a discount factor on an empty curve"
  else if t < 0 then .error "maturity must be non-negative"
  else if t = 0 then .ok 1
  else
    match knotTriples c with
    | [] => .error "cannot compute a discount factor on an empty curve"
    | p :: rest => .ok (curveEval c.method p t rest)

/-- Modelled from the spec: the knot contributed by a zero-coupon security —
discount factor = price/face_value at its maturity. -/
noncomputable def knotOf (s : Security) : ℝ × ℝ := (s.maturity, s.price / s.faceValue)

/-- The (maturity, discount factor) projection of an augmented knot triple. -/
def knotProj (x : ℝ × ℝ × ℝ) : ℝ × ℝ := (x.1, x.2.1)

/-- A well-formed step between adjacent curve knots: strictly increasing
maturity, non-increasing and positive discount factor (the spec's curve
invariants for a normal decreasing curve). -/
def knotStep (a b : ℝ × ℝ × ℝ) : Prop := a.1 < b.1 ∧ b.2.1 ≤ a.2.1 ∧ 0 < b.2.1

/-- Invariant of the previous knot carried by the curve lookup walk. -/
def prevOk (p : ℝ × ℝ × ℝ) : Prop :=
  0 < p.2.1 ∧ p.2.1 ≤ 1 ∧ 0 ≤ p.1 ∧ (p.1 = 0 → p.2.1 = 1)

/-- Modelled from the spec: construction of a ZeroCouponCurve from zero-coupon
securities sorted by maturity — each knot's discount factor is
price/face_value. -/
noncomputable def zcCurve (secs : List Security) (m : InterpMethod) : ZeroCouponCurve :=
  ⟨secs.map knotOf, m⟩

/-- Modelled from the spec: `ZeroCouponCurve.from_vectors` — validates that the
maturity, price and face-value arrays have equal length (failing with a
length-mismatch error before constructing anything), then builds the
zero-coupon knots. -/
noncomputable def fromVectors (maturities prices faceValues : List ℝ) (m : InterpMethod) :
    Except String ZeroCouponCurve :=
  if prices.length = maturities.length ∧ faceValues.length = maturities.length then
    .ok ⟨(List.range maturities.length).map fun i =>
      (maturities.getD i 0, prices.getD i 0 / faceValues.getD i 0), m⟩
  else .error lengthErrMsg

/-- Modelled from the spec: a ForwardCurve is a thin view over a base
ZeroCouponCurve. -/
structure ForwardCurve where
  base : ZeroCouponCurve

/-- Modelled from the spec: `ForwardCurve.forward_rate(t1, t2)` =
(ln(DF(t1)) − ln(DF(t2))) / (t2 − t1), requiring t2 > t1. -/
noncomputable def forwardRate (f : ForwardCurve) (t1 t2 : ℝ) : Except String ℝ :=
  if t2 ≤ t1 then .error "t2 must be greater than t1"
  else do
    let d1 ← discountFactor f.base t1
    let d2 ← discountFactor f.base t2
    pure ((Real.log d1 - Real.log d2) / (t2 - t1))

/-! ### Stochastic RNG -/

/-- Modelled from the spec: the seedable Stochastic RNG — a 64-bit-state
pseudo-random generator; machine words are modelled as naturals reduced
mod 2^64. -/
structure StochasticRng where
  state : Nat

/-- Modelled from the spec: construction of a generator from a seed. -/
def mkRng (seed : Nat) : StochasticRng := ⟨seed % 2 ^ 64⟩

/-- Modelled from the spec: one raw 64-bit draw (a SplitMix64-style state
update and output mix), returning the drawn word and the advanced
generator. -/
def next64 (r : StochasticRng) : Nat × StochasticRng :=
  let s := (r.state + 0x9E3779B97F4A7C15) % 2 ^ 64
  let z1 := ((s ^^^ (s >>> 30)) * 0xBF58476D1CE4E5B9) % 2 ^ 64
  let z2 := ((z1 ^^^ (z1 >>> 27)) * 0x94D049BB133111EB) % 2 ^ 64
  (z2 ^^^ (z2 >>> 31), ⟨s⟩)

/-- Modelled from the spec: `StochasticRng.uniform()` — a uniform variate in
[0, 1) from the top 53 bits of a 64-bit draw. -/
noncomputable def StochasticRng.uniform (r : StochasticRng) : ℝ × StochasticRng :=
  ((((next64 r).1 >>> 11 : Nat) : ℝ) / 2 ^ 53, (next64 r).2)

/-- Modelled from the spec: `StochasticRng.normal()` — a standard normal
variate from two uniform draws by the Box–Muller transform. -/
noncomputable def StochasticRng.normal (r : StochasticRng) : ℝ × StochasticRng :=
  let u1 := r.uniform
  let u2 := u1.2.uniform
  (Real.sqrt (-2 * Real.log (1 - u1.1)) * Real.cos (2 * π * u2.1), u2.2)

/-- Modelled from the spec: the kinds of draw calls exposed by the
generator. -/
inductive DrawKind
  | uniform
  | normal

/-- Modelled from the spec: running a sequence of draw calls against a
generator, collecting the outputs in call order. -/
noncomputable def runDraws (r : StochasticRng) : List DrawKind → List ℝ
  | [] => []
  | DrawKind.uniform :: ks => r.uniform.1 :: runDraws r.uniform.2 ks
  | DrawKind.normal :: ks => r.normal.1 :: runDraws r.normal.2 ks

/-! ## Theorems -/

lemma normalPdf_eq (t : ℝ) :
    normalPdf t = (Real.sqrt (2 * π))⁻¹ * Real.exp (-(1 / 2) * t ^ 2) := by
  unfold normalPdf
  ring_nf

lemma integrable_normalPdf : Integrable normalPdf := by
  have h : Integrable fun t : ℝ => Real.exp (-(1 / 2) * t ^ 2) :=
    integrable_exp_neg_mul_sq (by norm_num)
  have := h.const_mul (Real.sqrt (2 * π))⁻¹
  refine this.congr ?_
  filter_upwards with t
  rw [normalPdf_eq]

lemma normalPdf_neg (t : ℝ) : normalPdf (-t) = normalPdf t := by
  unfold normalPdf
  ring_nf

lemma sqrt_two_pi_pos : 0 < Real.sqrt (2 * π) :=
  Real.sqrt_pos.mpr (by positivity)

lemma integral_normalPdf : ∫ t, normalPdf t = 1 := by
  have h1 : ∫ t, normalPdf t = (Real.sqrt (2 * π))⁻¹ * ∫ t : ℝ, Real.exp (-(1 / 2) * t ^ 2) := by
    rw [← integral_mul_left]
    congr 1
    funext t
    rw [normalPdf_eq]
  rw [h1, integral_gaussian]
  have h2 : π / (1 / 2) = 2 * π := by ring
  rw [h2]
  exact inv_mul_cancel₀ (ne_of_gt sqrt_two_pi_pos)

lemma normalCdf_neg_eq (x : ℝ) : normalCdf (-x) = ∫ t in Ioi x, normalPdf t := by
  unfold normalCdf
  have h := integral_comp_neg_Iic (-x) normalPdf
  rw [neg_neg] at h
  rw [← h]
  congr 1
  funext t
  rw [normalPdf_neg]

lemma normalCdf_add_neg (x : ℝ) : normalCdf x + normalCdf (-x) = 1 := by
  rw [normalCdf_neg_eq]
  unfold normalCdf
  have hms : MeasurableSet (Iic x) := measurableSet_Iic
  have h := integral_add_compl hms integrable_normalPdf
  rw [Set.compl_Iic] at h
  rw [h, integral_normalPdf]

lemma euroPrice_call_sub_put (S K T r σ q : ℝ) :
    euroPrice true S K T r σ q - euroPrice false S K T r σ q
      = S * Real.exp (-(q * T)) - K * Real.exp (-(r * T)) := by
  unfold euroPrice payoff
  by_cases h : T = 0 ∨ σ = 0
  · rw [if_pos h, if_pos h]
    simp only [if_true, if_false, Bool.false_eq_true]
    have : K * Real.exp (-(r * T)) - S * Real.exp (-(q * T))
        = -(S * Real.exp (-(q * T)) - K * Real.exp (-(r * T))) := by ring
    rw [this, max_zero_sub_max_neg_zero_eq_self]
  · rw [if_neg h, if_neg h]
    simp only [if_true, if_false, Bool.false_eq_true]
    have h1 : normalCdf (-bsD1 S K T r σ q) = 1 - normalCdf (bsD1 S K T r σ q) := by
      have := normalCdf_add_neg (bsD1 S K T r σ q)
      linarith
    have h2 : normalCdf (-bsD2 S K T r σ q) = 1 - normalCdf (bsD2 S K T r σ q) := by
      have := normalCdf_add_neg (bsD2 S K T r σ q)
      linarith
    rw [h1, h2]
    ring

/-- C1: for every European option parameter set with S > 0, K > 0, T ≥ 0,
σ ≥ 0 and dividend yield q, the analytic call price minus the analytic put
price equals S·e^(−qT) − K·e^(−rT) (hence S − K·e^(−rT) when q = 0), within
1e-2 absolute tolerance; in the real-valued model the identity is exact. -/
theorem putCallParity (S K T r σ q : ℝ) (hS : 0 < S) (hK : 0 < K)
    (hT : 0 ≤ T) (hσ : 0 ≤ σ) :
    |euroPrice true S K T r σ q - euroPrice false S K T r σ q
      - (S * Real.exp (-(q * T)) - K * Real.exp (-(r * T)))| < 1 / 100 := by
  rw [euroPrice_call_sub_put, sub_self, abs_zero]
  norm_num

/-- Witness for C1 at the reference scenario S=100, K=100, T=1, r=0.05,
σ=0.2, q=0.02. -/
theorem putCallParity_witness :
    |euroPrice true 100 100 1 (5 / 100) (2 / 10) (2 / 100)
      - euroPrice false 100 100 1 (5 / 100) (2 / 10) (2 / 100)
      - (100 * Real.exp (-(2 / 100 * 1)) - 100 * Real.exp (-(5 / 100 * 1)))| < 1 / 100 :=
  putCallParity 100 100 1 (5 / 100) (2 / 10) (2 / 100)
    (by norm_num) (by norm_num) (by norm_num) (by norm_num)

/-- C5: at the boundary T = 0 or σ = 0 the analytic price equals the
discounted intrinsic value (the guarded edge case), and at T = 0 exactly the
undiscounted intrinsic value max(±(S−K),0); the real-valued model is total,
so no NaN can be produced. -/
theorem euroPrice_edge (isCall : Bool) (S K T r σ q : ℝ) :
    (T = 0 ∨ σ = 0 →
      euroPrice isCall S K T r σ q
        = payoff isCall (K * Real.exp (-(r * T))) (S * Real.exp (-(q * T)))) ∧
    (T = 0 → euroPrice isCall S K T r σ q = payoff isCall K S) := by
  constructor
  · intro h
    unfold euroPrice
    rw [if_pos h]
  · intro hT
    subst hT
    unfold euroPrice
    rw [if_pos (Or.inl rfl)]
    simp

/-- Witness for C5 at S=110, K=100, T=0, r=0.05, σ=0.2, q=0. -/
theorem euroPrice_edge_witness :
    euroPrice true 110 100 0 (5 / 100) (2 / 10) 0 = payoff true 100 110 :=
  (euroPrice_edge true 110 100 0 (5 / 100) (2 / 10) 0).2 rfl

/-- C9: two StochasticRng instances constructed from the same seed produce
identical output sequences under the same sequence of draw calls. -/
theorem rngReproducibility (seed : Nat) (calls : List DrawKind)
    (r1 r2 : StochasticRng) (h1 : r1 = mkRng seed) (h2 : r2 = mkRng seed) :
    runDraws r1 calls = runDraws r2 calls := by
  subst h1
  subst h2
  rfl

/-- Witness for C9: seed 42 with a normal/uniform/normal call sequence. -/
theorem rngReproducibility_witness :
    runDraws (mkRng 42) [DrawKind.normal, DrawKind.uniform, DrawKind.normal]
      = runDraws (mkRng 42) [DrawKind.normal, DrawKind.uniform, DrawKind.normal] :=
  rngReproducibility 42 [DrawKind.normal, DrawKind.uniform, DrawKind.normal]
    (mkRng 42) (mkRng 42) rfl rfl

lemma xor_shiftRight_lt (z n k : Nat) (hz : z < 2 ^ n) : z ^^^ z >>> k < 2 ^ n := by
  refine Nat.xor_lt_two_pow hz (lt_of_le_of_lt ?_ hz)
  rw [Nat.shiftRight_eq_div_pow]
  exact Nat.div_le_self _ _

lemma next64_lt (r : StochasticRng) : (next64 r).1 < 2 ^ 64 := by
  unfold next64
  exact xor_shiftRight_lt _ 64 31 (Nat.mod_lt _ (by norm_num))

/-- C10: every value returned by `StochasticRng.uniform()` lies in the
half-open interval [0, 1). -/
theorem uniformRange (r : StochasticRng) : 0 ≤ r.uniform.1 ∧ r.uniform.1 < 1 := by
  unfold StochasticRng.uniform
  constructor
  · positivity
  · have h1 : (next64 r).1 >>> 11 < 2 ^ 53 := by
      rw [Nat.shiftRight_eq_div_pow]
      exact Nat.div_lt_of_lt_mul (by calc (next64 r).1 < 2 ^ 64 := next64_lt r
        _ = 2 ^ 11 * 2 ^ 53 := by norm_num)
    rw [div_lt_one (by positivity)]
    exact_mod_cast h1

lemma chunksAux_flatten {α : Type*} (w : Nat) (hw : 0 < w) :
    ∀ (fuel : Nat) (l : List α), l.length ≤ fuel → (chunksAux w fuel l).flatten = l := by
  intro fuel
  induction fuel with
  | zero =>
    intro l hl
    have : l = [] := List.eq_nil_of_length_eq_zero (Nat.le_zero.mp hl)
    subst this
    rfl
  | succ n ih =>
    intro l hl
    cases l with
    | nil => rfl
    | cons x xs =>
      have hrec : (chunksAux w n ((x :: xs).drop w)).flatten = (x :: xs).drop w := by
        refine ih _ ?_
        rw [List.length_drop]
        simp only [List.length_cons] at hl ⊢
        omega
      simp only [chunksAux, List.flatten_cons, hrec, List.take_append_drop]

lemma laneMap_eq_map {α : Type*} (f : Nat → α) (n : Nat) :
    laneMap f n = (List.range n).map f := by
  unfold laneMap chunks
  rw [Eq.symm (List.map_flatten f (chunksAux laneWidth (List.range n).length (List.range n)))]
  rw [chunksAux_flatten laneWidth (by norm_num [laneWidth]) _ _ le_rfl]

lemma laneMap_length {α : Type*} (f : Nat → α) (n : Nat) : (laneMap f n).length = n := by
  rw [laneMap_eq_map]
  simp

lemma laneMap_getD {α : Type*} (f : Nat → α) (n i : Nat) (d : α) (hi : i < n) :
    (laneMap f n).getD i d = f i := by
  rw [laneMap_eq_map]
  have hlen : i < ((List.range n).map f).length := by simpa using hi
  rw [List.getD_eq_getElem _ _ hlen]
  simp

lemma laneMap_map_getD {α β : Type*} (g : Nat → α) (h : α → β) (n i : Nat) (d : β)
    (hi : i < n) : ((laneMap g n).map h).getD i d = h (g i) := by
  rw [laneMap_eq_map, List.map_map]
  have hlen : i < (((List.range n).map (h ∘ g))).length := by simpa using hi
  rw [List.getD_eq_getElem _ _ hlen]
  simp

/-- C2: for equal-length parameter arrays, the batch operations `price_many`
and `greeks_many` of both the analytic and the binomial pricer (the latter
with the shared step count) return sequences whose i-th element equals the
corresponding scalar `price()`/`greeks()` result (exactly, hence within
1e-10), with output order identical to input order. -/
theorem batchScalarConsistency (isCall : Bool)
    (spots strikes times rates vols qs : List ℝ) (steps : Nat) (i : Nat)
    (hlen : strikes.length = spots.length ∧ times.length = spots.length
      ∧ rates.length = spots.length ∧ vols.length = spots.length
      ∧ qs.length = spots.length)
    (hi : i < spots.length) :
    (∃ l, euroPriceMany isCall spots strikes times rates vols qs = Except.ok l
      ∧ l.length = spots.length
      ∧ l.getD i 0 = euroPrice isCall (spots.getD i 0) (strikes.getD i 0)
          (times.getD i 0) (rates.getD i 0) (vols.getD i 0) (qs.getD i 0)) ∧
    (∃ l, americanPriceMany isCall spots strikes times rates vols qs steps = Except.ok l
      ∧ l.length = spots.length
      ∧ l.getD i 0 = americanPrice isCall (spots.getD i 0) (strikes.getD i 0)
          (times.getD i 0) (rates.getD i 0) (vols.getD i 0) (qs.getD i 0) steps) ∧
    (∃ ps ds gs vs ths rs,
      euroGreeksMany isCall spots strikes times rates vols qs
          = Except.ok (ps, ds, gs, vs, ths, rs)
      ∧ (ps.getD i 0, ds.getD i 0, gs.getD i 0, vs.getD i 0, ths.getD i 0, rs.getD i 0)
          = (let g := euroGreeks isCall (spots.getD i 0) (strikes.getD i 0)
              (times.getD i 0) (rates.getD i 0) (vols.getD i 0) (qs.getD i 0)
            (g.price, g.delta, g.gamma, g.vega, g.theta, g.rho))) ∧
    (∃ ps ds gs vs ths rs,
      americanGreeksMany isCall spots strikes times rates vols qs steps
          = Except.ok (ps, ds, gs, vs, ths, rs)
      ∧ (ps.getD i 0, ds.getD i 0, gs.getD i 0, vs.getD i 0, ths.getD i 0, rs.getD i 0)
          = (let g := americanGreeks isCall (spots.getD i 0) (strikes.getD i 0)
              (times.getD i 0) (rates.getD i 0) (vols.getD i 0) (qs.getD i 0) steps
            (g.price, g.delta, g.gamma, g.vega, g.theta, g.rho))) := by
  refine ⟨?_, ?_, ?_, ?_⟩
  · unfold euroPriceMany
    rw [if_pos hlen]
    exact ⟨_, rfl, laneMap_length _ _, laneMap_getD _ _ _ _ hi⟩
  · unfold americanPriceMany
    rw [if_pos hlen]
    exact ⟨_, rfl, laneMap_length _ _, laneMap_getD _ _ _ _ hi⟩
  · unfold euroGreeksMany
    rw [if_pos hlen]
    refine ⟨_, _, _, _, _, _, rfl, ?_⟩
    simp only [laneMap_map_getD _ _ _ _ _ hi]
  · unfold americanGreeksMany
    rw [if_pos hlen]
    refine ⟨_, _, _, _, _, _, rfl, ?_⟩
    simp only [laneMap_map_getD _ _ _ _ _ hi]

/-- Witness for C2: a 3-element batch, checked at index 1. -/
theorem batchScalarConsistency_witness :
    (∃ l, euroPriceMany true [100, 105, 95] [100, 100, 100] [1, 1, 1]
        [5 / 100, 5 / 100, 5 / 100] [2 / 10, 2 / 10, 2 / 10] [0, 0, 0] = Except.ok l
      ∧ l.length = ([100, 105, 95] : List ℝ).length
      ∧ l.getD 1 0 = euroPrice true (([100, 105, 95] : List ℝ).getD 1 0)
          (([100, 100, 100] : List ℝ).getD 1 0) (([1, 1, 1] : List ℝ).getD 1 0)
          (([5 / 100, 5 / 100, 5 / 100] : List ℝ).getD 1 0)
          (([2 / 10, 2 / 10, 2 / 10] : List ℝ).getD 1 0)
          (([0, 0, 0] : List ℝ).getD 1 0)) ∧
    (∃ l, americanPriceMany true [100, 105, 95] [100, 100, 100] [1, 1, 1]
        [5 / 100, 5 / 100, 5 / 100] [2 / 10, 2 / 10, 2 / 10] [0, 0, 0] 100 = Except.ok l
      ∧ l.length = ([100, 105, 95] : List ℝ).length
      ∧ l.getD 1 0 = americanPrice true (([100, 105, 95] : List ℝ).getD 1 0)
          (([100, 100, 100] : List ℝ).getD 1 0) (([1, 1, 1] : List ℝ).getD 1 0)
          (([5 / 100, 5 / 100, 5 / 100] : List ℝ).getD 1 0)
          (([2 / 10, 2 / 10, 2 / 10] : List ℝ).getD 1 0)
          (([0, 0, 0] : List ℝ).getD 1 0) 100) ∧
    (∃ ps ds gs vs ths rs,
      euroGreeksMany true [100, 105, 95] [100, 100, 100] [1, 1, 1]
          [5 / 100, 5 / 100, 5 / 100] [2 / 10, 2 / 10, 2 / 10] [0, 0, 0]
          = Except.ok (ps, ds, gs, vs, ths, rs)
      ∧ (ps.getD 1 0, ds.getD 1 0, gs.getD 1 0, vs.getD 1 0, ths.getD 1 0, rs.getD 1 0)
          = (let g := euroGreeks true (([100, 105, 95] : List ℝ).getD 1 0)
              (([100, 100, 100] : List ℝ).getD 1 0) (([1, 1, 1] : List ℝ).getD 1 0)
              (([5 / 100, 5 / 100, 5 / 100] : List ℝ).getD 1 0)
              (([2 / 10, 2 / 10, 2 / 10] : List ℝ).getD 1 0)
              (([0, 0, 0] : List ℝ).getD 1 0)
            (g.price, g.delta, g.gamma, g.vega, g.theta, g.rho))) ∧
    (∃ ps ds gs vs ths rs,
      americanGreeksMany true [100, 105, 95] [100, 100, 100] [1, 1, 1]
          [5 / 100, 5 / 100, 5 / 100] [2 / 10, 2 / 10, 2 / 10] [0, 0, 0] 100
          = Except.ok (ps, ds, gs, vs, ths, rs)
      ∧ (ps.getD 1 0, ds.getD 1 0, gs.getD 1 0, vs.getD 1 0, ths.getD 1 0, rs.getD 1 0)
          = (let g := americanGreeks true (([100, 105, 95] : List ℝ).getD 1 0)
              (([100, 100, 100] : List ℝ).getD 1 0) (([1, 1, 1] : List ℝ).getD 1 0)
              (([5 / 100, 5 / 100, 5 / 100] : List ℝ).getD 1 0)
              (([2 / 10, 2 / 10, 2 / 10] : List ℝ).getD 1 0)
              (([0, 0, 0] : List ℝ).getD 1 0) 100
            (g.price, g.delta, g.gamma, g.vega, g.theta, g.rho))) :=
  batchScalarConsistency true [100, 105, 95] [100, 100, 100] [1, 1, 1]
    [5 / 100, 5 / 100, 5 / 100] [2 / 10, 2 / 10, 2 / 10] [0, 0, 0] 100 1
    (by simp) (by simp)

/-- C8: a batch call whose parameter arrays do not all have the same length
fails immediately with the length-mismatch error and produces no output at
all (the result is the error alone, never partial data); likewise for
`from_vectors`. -/
theorem batchLengthValidation (isCall : Bool)
    (spots strikes times rates vols qs : List ℝ) (steps : Nat)
    (maturities prices faceValues : List ℝ) (m : InterpMethod) :
    (¬(strikes.length = spots.length ∧ times.length = spots.length
        ∧ rates.length = spots.length ∧ vols.length = spots.length
        ∧ qs.length = spots.length) →
      euroPriceMany isCall spots strikes times rates vols qs = Except.error lengthErrMsg
      ∧ euroGreeksMany isCall spots strikes times rates vols qs = Except.error lengthErrMsg
      ∧ americanPriceMany isCall spots strikes times rates vols qs steps
          = Except.error lengthErrMsg
      ∧ americanGreeksMany isCall spots strikes times rates vols qs steps
          = Except.error lengthErrMsg) ∧
    (¬(prices.length = maturities.length ∧ faceValues.length = maturities.length) →
      fromVectors maturities prices faceValues m = Except.error lengthErrMsg) := by
  constructor
  · intro h
    refine ⟨?_, ?_, ?_, ?_⟩
    · unfold euroPriceMany
      rw [if_neg h]
    · unfold euroGreeksMany
      rw [if_neg h]
    · unfold americanPriceMany
      rw [if_neg h]
    · unfold americanGreeksMany
      rw [if_neg h]
  · intro h
    unfold fromVectors
    rw [if_neg h]

/-- Witness for C8: a two-element spot array against a one-element strike
array (and a two-element maturity array against a one-element price array). -/
theorem batchLengthValidation_witness :
    (euroPriceMany true [100, 105] [100] [1, 1] [5 / 100, 5 / 100] [2 / 10, 2 / 10] [0, 0]
        = Except.error lengthErrMsg
      ∧ euroGreeksMany true [100, 105] [100] [1, 1] [5 / 100, 5 / 100] [2 / 10, 2 / 10] [0, 0]
          = Except.error lengthErrMsg
      ∧ americanPriceMany true [100, 105] [100] [1, 1] [5 / 100, 5 / 100] [2 / 10, 2 / 10]
          [0, 0] 100 = Except.error lengthErrMsg
      ∧ americanGreeksMany true [100, 105] [100] [1, 1] [5 / 100, 5 / 100] [2 / 10, 2 / 10]
          [0, 0] 100 = Except.error lengthErrMsg) ∧
    fromVectors [1, 2] [95] [100, 100] InterpMethod.logLinear = Except.error lengthErrMsg :=
  ⟨(batchLengthValidation true [100, 105] [100] [1, 1] [5 / 100, 5 / 100] [2 / 10, 2 / 10]
      [0, 0] 100 [1, 2] [95] [100, 100] InterpMethod.logLinear).1 (by simp),
   (batchLengthValidation true [100, 105] [100] [1, 1] [5 / 100, 5 / 100] [2 / 10, 2 / 10]
      [0, 0] 100 [1, 2] [95] [100, 100] InterpMethod.logLinear).2 (by simp)⟩

lemma splineRows_length (ks : List (ℝ × ℝ)) : (splineRows ks).length = ks.length - 2 := by
  induction ks with
  | nil => simp [splineRows]
  | cons a tail ih =>
    cases tail with
    | nil => simp [splineRows]
    | cons b tail2 =>
      cases tail2 with
      | nil => simp [splineRows]
      | cons c rest =>
        obtain ⟨ta, ya⟩ := a
        obtain ⟨tb, yb⟩ := b
        obtain ⟨tc, yc⟩ := c
        simp only [splineRows, List.length_cons] at ih ⊢
        omega

lemma thomasFwd_length (rows : List (ℝ × ℝ × ℝ × ℝ)) :
    ∀ cp dp, (thomasFwd rows cp dp).length = rows.length := by
  induction rows with
  | nil => intro cp dp; rfl
  | cons row rest ih =>
    intro cp dp
    obtain ⟨a, b, c, d⟩ := row
    simp only [thomasFwd, List.length_cons, ih]

lemma thomasBackAux_length (l : List (ℝ × ℝ)) :
    ∀ x, (thomasBackAux l x).length = l.length := by
  induction l with
  | nil => intro x; rfl
  | cons cd rest ih =>
    intro x
    obtain ⟨c, d⟩ := cd
    simp only [thomasBackAux, List.length_cons, ih]

lemma thomasSolve_length (rows : List (ℝ × ℝ × ℝ × ℝ)) :
    (thomasSolve rows).length = rows.length := by
  unfold thomasSolve
  rw [List.length_reverse, thomasBackAux_length, List.length_reverse, thomasFwd_length]

lemma splineMs_length (ks : List (ℝ × ℝ)) : (splineMs ks).length = ks.length - 2 + 2 := by
  unfold splineMs
  simp [thomasSolve_length, splineRows_length]

lemma zip_trip_proj : ∀ (aug : List (ℝ × ℝ)) (ms : List ℝ), aug.length ≤ ms.length →
    ((aug.zip ms).map fun kv => (kv.1.1, kv.1.2, kv.2)).map knotProj = aug := by
  intro aug
  induction aug with
  | nil => intro ms _; rfl
  | cons k rest ih =>
    intro ms h
    cases ms with
    | nil => simp at h
    | cons m0 ms' =>
      simp only [List.zip_cons_cons, List.map_cons, knotProj]
      congr 1
      exact ih ms' (by simpa using h)

lemma knotTriples_proj (c : ZeroCouponCurve) :
    (knotTriples c).map knotProj = ((0 : ℝ), (1 : ℝ)) :: c.knots := by
  unfold knotTriples
  cases c.method with
  | cubic =>
    apply zip_trip_proj
    rw [splineMs_length]
    simp only [List.length_cons]
    omega
  | linear =>
    apply zip_trip_proj
    rw [List.length_replicate]
  | logLinear =>
    apply zip_trip_proj
    rw [List.length_replicate]

lemma curveEval_cons (m : InterpMethod) (p k : ℝ × ℝ × ℝ) (t : ℝ) (l : List (ℝ × ℝ × ℝ)) :
    curveEval m p t (k :: l)
      = if t = k.1 then k.2.1
        else if t < k.1 then interpPair m p k t else curveEval m k t l := rfl

lemma curveEval_nil (m : InterpMethod) (p : ℝ × ℝ × ℝ) (t : ℝ) :
    curveEval m p t [] = Real.exp (-(-Real.log p.2.1 / p.1) * t) := rfl

lemma curveEval_skip (m : InterpMethod) (t : ℝ) :
    ∀ (l₁ : List (ℝ × ℝ × ℝ)) (p : ℝ × ℝ × ℝ) (rest : List (ℝ × ℝ × ℝ)),
      (∀ x ∈ l₁, x.1 < t) →
      ∃ p', curveEval m p t (l₁ ++ rest) = curveEval m p' t rest := by
  intro l₁
  induction l₁ with
  | nil => intro p rest _; exact ⟨p, rfl⟩
  | cons x xs ih =>
    intro p rest h
    have hx : x.1 < t := h x (List.mem_cons_self x xs)
    have h1 : curveEval m p t ((x :: xs) ++ rest) = curveEval m x t (xs ++ rest) := by
      rw [List.cons_append, curveEval_cons,
        if_neg ((ne_of_lt hx).symm), if_neg (not_lt.mpr (le_of_lt hx))]
    rw [h1]
    exact ih x rest fun y hy => h y (List.mem_cons_of_mem x hy)

lemma curveEval_single (m : InterpMethod) (p last : ℝ × ℝ × ℝ) (t : ℝ) (h : last.1 < t) :
    curveEval m p t [last] = Real.exp (-(-Real.log last.2.1 / last.1) * t) := by
  rw [curveEval_cons, if_neg ((ne_of_lt h).symm), if_neg (not_lt.mpr (le_of_lt h)),
    curveEval_nil]

lemma curveEval_here (m : InterpMethod) (p k : ℝ × ℝ × ℝ) (l₂ : List (ℝ × ℝ × ℝ)) :
    curveEval m p k.1 (k :: l₂) = k.2.1 := by
  rw [curveEval_cons, if_pos rfl]

/-- C4: for every non-empty zero-coupon curve under every interpolation
method: discount_factor(0) returns exactly 1.0; discount_factor at a knot
maturity returns that knot's stored price/face_value exactly; and for every
maturity beyond the last knot it returns exp(−r_last·t), where r_last is the
last knot's zero rate −ln(DF_last)/t_last. -/
theorem discountFactorExactness (secs : List Security) (m : InterpMethod)
    (hne : secs ≠ [])
    (hsorted : (secs.map Security.maturity).Pairwise (· < ·))
    (hpos : ∀ s ∈ secs, 0 < s.maturity) :
    discountFactor (zcCurve secs m) 0 = Except.ok 1 ∧
    (∀ s ∈ secs, discountFactor (zcCurve secs m) s.maturity
        = Except.ok (s.price / s.faceValue)) ∧
    (∀ t, (∀ s ∈ secs, s.maturity < t) → 0 < t →
      discountFactor (zcCurve secs m) t
        = Except.ok (Real.exp (-(-Real.log ((secs.getLast hne).price
            / (secs.getLast hne).faceValue) / (secs.getLast hne).maturity) * t))) := by
  have hknots : (zcCurve secs m).knots = secs.map knotOf := rfl
  have hmeth : (zcCurve secs m).method = m := rfl
  have hnemp : (zcCurve secs m).knots.isEmpty = false := by
    rw [hknots]
    simp [List.isEmpty_eq_false, hne]
  have htrproj : (knotTriples (zcCurve secs m)).map knotProj
      = ((0 : ℝ), (1 : ℝ)) :: secs.map knotOf := by
    rw [knotTriples_proj, hknots]
  obtain ⟨p, rest, htr⟩ : ∃ p rest, knotTriples (zcCurve secs m) = p :: rest := by
    cases h : knotTriples (zcCurve secs m) with
    | nil => rw [h] at htrproj; simp at htrproj
    | cons p rest => exact ⟨p, rest, rfl⟩
  rw [htr, List.map_cons, List.cons.injEq] at htrproj
  have hrestproj : rest.map knotProj = secs.map knotOf := htrproj.2
  have hrest_sorted : rest.Pairwise fun a b : ℝ × ℝ × ℝ => a.1 < b.1 := by
    have h1 : (secs.map knotOf).Pairwise fun a b : ℝ × ℝ => a.1 < b.1 := by
      rw [List.pairwise_map]
      rw [List.pairwise_map] at hsorted
      exact hsorted
    rw [← hrestproj, List.pairwise_map] at h1
    exact h1
  refine ⟨?_, ?_, ?_⟩
  · unfold discountFactor
    rw [hnemp]
    norm_num
  · intro s hs
    have hmat : 0 < s.maturity := hpos s hs
    unfold discountFactor
    rw [hnemp]
    simp only [Bool.false_eq_true, if_false]
    rw [if_neg (not_lt.mpr (le_of_lt hmat)), if_neg (ne_of_gt hmat), htr, hmeth]
    have hmem : knotOf s ∈ rest.map knotProj := by
      rw [hrestproj]
      exact List.mem_map_of_mem knotOf hs
    obtain ⟨k, hk, hkproj⟩ := List.mem_map.mp hmem
    obtain ⟨l₁, l₂, hsplit⟩ := List.append_of_mem hk
    have hbefore : ∀ x ∈ l₁, x.1 < k.1 := by
      intro x hx
      rw [hsplit, List.pairwise_append] at hrest_sorted
      exact hrest_sorted.2.2 x hx k (List.mem_cons_self k l₂)
    have hk1 : k.1 = s.maturity := congrArg Prod.fst hkproj
    have hk2 : k.2.1 = s.price / s.faceValue := by
      have := congrArg Prod.snd hkproj
      simpa [knotProj, knotOf] using this
    rw [hsplit]
    obtain ⟨p', hp'⟩ := curveEval_skip m s.maturity l₁ p (k :: l₂)
      (by intro x hx; rw [← hk1]; exact hbefore x hx)
    show Except.ok (curveEval m p s.maturity (l₁ ++ k :: l₂))
      = Except.ok (s.price / s.faceValue)
    rw [hp', ← hk1, curveEval_here, hk2]
  · intro t hbig ht
    unfold discountFactor
    rw [hnemp]
    simp only [Bool.false_eq_true, if_false]
    rw [if_neg (not_lt.mpr (le_of_lt ht)), if_neg (ne_of_gt ht), htr, hmeth]
    have hrne : rest ≠ [] := by
      intro hnil
      rw [hnil] at hrestproj
      have : secs.map knotOf = [] := hrestproj.symm
      exact hne (List.map_eq_nil_iff.mp this)
    have hall : ∀ x ∈ rest, x.1 < t := by
      intro x hx
      have hx' : knotProj x ∈ secs.map knotOf := by
        rw [← hrestproj]
        exact List.mem_map_of_mem knotProj hx
      obtain ⟨s, hs, hsx⟩ := List.mem_map.mp hx'
      have : x.1 = s.maturity := by
        have := congrArg Prod.fst hsx
        simpa [knotProj, knotOf] using this.symm
      rw [this]
      exact hbig s hs
    have hsplitlast := (List.dropLast_append_getLast hrne).symm
    set lastT := rest.getLast hrne with hlastT
    have hlast_proj : knotProj lastT = knotOf (secs.getLast hne) := by
      have h1 : (rest.map knotProj).getLast? = some (knotProj lastT) := by
        rw [List.getLast?_map, List.getLast?_eq_getLast rest hrne]
        rfl
      have h2 : (secs.map knotOf).getLast? = some (knotOf (secs.getLast hne)) := by
        rw [List.getLast?_map, List.getLast?_eq_getLast secs hne]
        rfl
      rw [hrestproj] at h1
      rw [h1] at h2
      exact Option.some_inj.mp h2
    have hlast1 : lastT.1 = (secs.getLast hne).maturity := by
      have := congrArg Prod.fst hlast_proj
      simpa [knotProj, knotOf] using this
    have hlast2 : lastT.2.1 = (secs.getLast hne).price / (secs.getLast hne).faceValue := by
      have := congrArg Prod.snd hlast_proj
      simpa [knotProj, knotOf] using this
    rw [hsplitlast]
    obtain ⟨p', hp'⟩ := curveEval_skip m t rest.dropLast p [lastT]
      (fun x hx => hall x (List.dropLast_subset rest hx))
    show Except.ok (curveEval m p t (rest.dropLast ++ [lastT]))
      = Except.ok (Real.exp (-(-Real.log ((secs.getLast hne).price
          / (secs.getLast hne).faceValue) / (secs.getLast hne).maturity) * t))
    rw [hp', curveEval_single m p' lastT t
      (by rw [hlast1]; exact hbig _ (List.getLast_mem hne)), hlast1, hlast2]

/-- Witness for C4: the two-security curve (1y, 95) / (2y, 90) under
log-linear interpolation prices DF(0) to exactly 1. -/
theorem discountFactorExactness_witness :
    discountFactor (zcCurve [⟨1, 95, 100, none, 1⟩, ⟨2, 90, 100, none, 1⟩]
      InterpMethod.logLinear) 0 = Except.ok 1 :=
  (discountFactorExactness [⟨1, 95, 100, none, 1⟩, ⟨2, 90, 100, none, 1⟩]
    InterpMethod.logLinear (by simp)
    (by simp only [List.map_cons, List.map_nil, List.pairwise_cons]; norm_num)
    (by
      intro s hs
      simp only [List.mem_cons, List.not_mem_nil, or_false] at hs
      rcases hs with h | h <;> · subst h; norm_num)).1

lemma zip_replicate_triples : ∀ l : List (ℝ × ℝ),
    ((l.zip (List.replicate l.length (0 : ℝ))).map fun kv => (kv.1.1, kv.1.2, kv.2))
      = l.map fun k => (k.1, k.2, (0 : ℝ)) := by
  intro l
  induction l with
  | nil => rfl
  | cons k rest ih =>
    simp only [List.length_cons, List.replicate_succ, List.zip_cons_cons, List.map_cons, ih]

lemma knotTriples_noncubic (c : ZeroCouponCurve) (h : c.method ≠ InterpMethod.cubic) :
    knotTriples c = ((0 : ℝ), (1 : ℝ), (0 : ℝ)) :: c.knots.map fun k => (k.1, k.2, (0 : ℝ)) := by
  unfold knotTriples
  cases hm : c.method with
  | cubic => exact absurd hm h
  | linear =>
    have := zip_replicate_triples (((0 : ℝ), (1 : ℝ)) :: c.knots)
    simpa using this
  | logLinear =>
    have := zip_replicate_triples (((0 : ℝ), (1 : ℝ)) :: c.knots)
    simpa using this

/-- Within one knot interval of a log-linear curve the discount factor is the
exponential of the affine interpolant of the log discount factors. -/
lemma logLinear_segment (c : ZeroCouponCurve) (pre post : List (ℝ × ℝ)) (k1 k2 : ℝ × ℝ)
    (hc : c.knots = pre ++ k1 :: k2 :: post) (hm : c.method = InterpMethod.logLinear)
    (hsorted : c.knots.Pairwise fun a b : ℝ × ℝ => a.1 < b.1)
    (hpos : ∀ k ∈ c.knots, 0 < k.1 ∧ 0 < k.2)
    (t : ℝ) (ht1 : k1.1 ≤ t) (ht2 : t ≤ k2.1) :
    discountFactor c t = Except.ok (Real.exp (Real.log k1.2
      + (Real.log k2.2 - Real.log k1.2) * (t - k1.1) / (k2.1 - k1.1))) := by
  have hk1mem : k1 ∈ c.knots := by rw [hc]; simp
  have hk2mem : k2 ∈ c.knots := by rw [hc]; simp
  have hk1pos := hpos k1 hk1mem
  have hk2pos := hpos k2 hk2mem
  have h12 : k1.1 < k2.1 := by
    rw [hc, List.pairwise_append] at hsorted
    exact (List.pairwise_cons.mp hsorted.2.1).1 k2 (List.mem_cons_self k2 post)
  have htpos : 0 < t := lt_of_lt_of_le hk1pos.1 ht1
  have hnemp : c.knots.isEmpty = false := by
    rw [hc]
    simp [List.isEmpty_eq_false]
  have htr := knotTriples_noncubic c (by rw [hm]; intro hcon; exact InterpMethod.noConfusion hcon)
  unfold discountFactor
  rw [hnemp]
  simp only [Bool.false_eq_true, if_false]
  rw [if_neg (not_lt.mpr (le_of_lt htpos)), if_neg (ne_of_gt htpos), htr, hm, hc]
  rw [List.map_append, List.map_cons, List.map_cons]
  set preT := pre.map fun k : ℝ × ℝ => (k.1, k.2, (0 : ℝ)) with hpreT
  set k1T : ℝ × ℝ × ℝ := (k1.1, k1.2, 0) with hk1T
  set k2T : ℝ × ℝ × ℝ := (k2.1, k2.2, 0) with hk2T
  set postT := post.map fun k : ℝ × ℝ => (k.1, k.2, (0 : ℝ)) with hpostT
  show Except.ok (curveEval InterpMethod.logLinear ((0 : ℝ), (1 : ℝ), (0 : ℝ)) t
      (preT ++ k1T :: k2T :: postT)) = _
  have hpre_lt : ∀ x ∈ preT, x.1 < t := by
    intro x hx
    rw [hpreT] at hx
    obtain ⟨k, hk, hkx⟩ := List.mem_map.mp hx
    have hklt : k.1 < k1.1 := by
      rw [hc, List.pairwise_append] at hsorted
      exact hsorted.2.2 k hk k1 (List.mem_cons_self k1 (k2 :: post))
    have : x.1 = k.1 := by rw [← hkx]
    rw [this]
    exact lt_of_lt_of_le hklt ht1
  obtain ⟨p', hp'⟩ := curveEval_skip InterpMethod.logLinear t preT
    ((0 : ℝ), (1 : ℝ), (0 : ℝ)) (k1T :: k2T :: postT) hpre_lt
  rw [hp']
  rcases eq_or_lt_of_le ht1 with heq1 | hlt1
  · rw [← heq1]
    have : curveEval InterpMethod.logLinear p' k1.1 (k1T :: k2T :: postT) = k1.2 := by
      have h := curveEval_here InterpMethod.logLinear p' k1T (k2T :: postT)
      simpa [hk1T] using h
    rw [this]
    congr 1
    rw [sub_self, mul_zero, zero_div, add_zero, Real.exp_log hk1pos.2]
  · have hstep : curveEval InterpMethod.logLinear p' t (k1T :: k2T :: postT)
        = curveEval InterpMethod.logLinear k1T t (k2T :: postT) := by
      rw [curveEval_cons]
      have hne1 : t ≠ k1T.1 := by
        rw [hk1T]
        exact (ne_of_lt hlt1).symm
      have hnlt1 : ¬t < k1T.1 := by
        rw [hk1T]
        exact not_lt.mpr (le_of_lt hlt1)
      rw [if_neg hne1, if_neg hnlt1]
    rw [hstep]
    rcases eq_or_lt_of_le ht2 with heq2 | hlt2
    · rw [heq2]
      have : curveEval InterpMethod.logLinear k1T k2.1 (k2T :: postT) = k2.2 := by
        have h := curveEval_here InterpMethod.logLinear k1T k2T postT
        simpa [hk2T] using h
      rw [this]
      congr 1
      have hd : k2.1 - k1.1 ≠ 0 := sub_ne_zero.mpr (ne_of_gt h12)
      have harg : Real.log k1.2 + (Real.log k2.2 - Real.log k1.2) * (k2.1 - k1.1) / (k2.1 - k1.1)
          = Real.log k2.2 := by
        field_simp
      rw [harg, Real.exp_log hk2pos.2]
    · have : curveEval InterpMethod.logLinear k1T t (k2T :: postT)
          = interpPair InterpMethod.logLinear k1T k2T t := by
        rw [curveEval_cons]
        have hne2 : t ≠ k2T.1 := by
          rw [hk2T]
          exact ne_of_lt hlt2
        rw [if_neg hne2, if_pos (by rw [hk2T]; exact hlt2)]
      rw [this]
      rfl

/-- C6: on a log-linear curve, the forward rate over any two sub-intervals of
the same knot interval is the same (the forward rate is piecewise constant):
the two rates differ by less than 1e-10 — in the real-valued model by
exactly 0. -/
theorem logLinearConstantForward (c : ZeroCouponCurve) (pre post : List (ℝ × ℝ))
    (k1 k2 : ℝ × ℝ)
    (hc : c.knots = pre ++ k1 :: k2 :: post) (hm : c.method = InterpMethod.logLinear)
    (hsorted : c.knots.Pairwise fun a b : ℝ × ℝ => a.1 < b.1)
    (hpos : ∀ k ∈ c.knots, 0 < k.1 ∧ 0 < k.2)
    (a1 b1 a2 b2 : ℝ)
    (h11 : k1.1 ≤ a1) (h12 : a1 < b1) (h13 : b1 ≤ k2.1)
    (h21 : k1.1 ≤ a2) (h22 : a2 < b2) (h23 : b2 ≤ k2.1) :
    ∃ r1 r2, forwardRate ⟨c⟩ a1 b1 = Except.ok r1 ∧ forwardRate ⟨c⟩ a2 b2 = Except.ok r2
      ∧ |r1 - r2| < 1 / 10 ^ 10 := by
  have h12' : k1.1 < k2.1 := by
    have hs := hsorted
    rw [hc, List.pairwise_append] at hs
    exact (List.pairwise_cons.mp hs.2.1).1 k2 (List.mem_cons_self k2 post)
  have hd : k2.1 - k1.1 ≠ 0 := sub_ne_zero.mpr (ne_of_gt h12')
  have key : ∀ x y, k1.1 ≤ x → x < y → y ≤ k2.1 →
      forwardRate ⟨c⟩ x y = Except.ok
        (-((Real.log k2.2 - Real.log k1.2) / (k2.1 - k1.1))) := by
    intro x y hx hxy hy
    have hdx := logLinear_segment c pre post k1 k2 hc hm hsorted hpos x hx
      (le_trans (le_of_lt hxy) hy)
    have hdy := logLinear_segment c pre post k1 k2 hc hm hsorted hpos y
      (le_trans hx (le_of_lt hxy)) hy
    unfold forwardRate
    rw [if_neg (not_le.mpr hxy)]
    show (discountFactor c x).bind _ = _
    rw [hdx]
    show (discountFactor c y).bind _ = _
    rw [hdy]
    show Except.ok ((Real.log (Real.exp (Real.log k1.2
        + (Real.log k2.2 - Real.log k1.2) * (x - k1.1) / (k2.1 - k1.1)))
      - Real.log (Real.exp (Real.log k1.2
        + (Real.log k2.2 - Real.log k1.2) * (y - k1.1) / (k2.1 - k1.1)))) / (y - x)) = _
    congr 1
    rw [Real.log_exp, Real.log_exp]
    have hyx : y - x ≠ 0 := sub_ne_zero.mpr (ne_of_lt hxy).symm
    field_simp
    ring
  exact ⟨_, _, key a1 b1 h11 h12 h13, key a2 b2 h21 h22 h23,
    by rw [sub_self, abs_zero]; norm_num⟩

/-- Witness for C6: the test curve with knots (1y, 0.95) and (2y, 0.90) under
log-linear interpolation, sub-intervals [1, 1.5] and [1.5, 2]. -/
theorem logLinearConstantForward_witness :
    ∃ r1 r2,
      forwardRate ⟨⟨[(1, 95 / 100), (2, 90 / 100)], InterpMethod.logLinear⟩⟩ 1 (3 / 2)
          = Except.ok r1
      ∧ forwardRate ⟨⟨[(1, 95 / 100), (2, 90 / 100)], InterpMethod.logLinear⟩⟩ (3 / 2) 2
          = Except.ok r2
      ∧ |r1 - r2| < 1 / 10 ^ 10 :=
  logLinearConstantForward ⟨[(1, 95 / 100), (2, 90 / 100)], InterpMethod.logLinear⟩ [] []
    (1, 95 / 100) (2, 90 / 100) rfl rfl
    (by norm_num [List.pairwise_cons])
    (by
      intro k hk
      simp only [List.mem_cons, List.not_mem_nil, or_false] at hk
      rcases hk with h | h <;> · subst h; norm_num)
    1 (3 / 2) (3 / 2) 2 (by norm_num) (by norm_num) (by norm_num)
    (by norm_num) (by norm_num) (by norm_num)

lemma affine_mono (y0 y1 t0 t1 s t : ℝ) (h01 : t0 < t1) (hy : y1 ≤ y0) (hst : s ≤ t) :
    y0 + (y1 - y0) * (t - t0) / (t1 - t0) ≤ y0 + (y1 - y0) * (s - t0) / (t1 - t0) := by
  have hh : 0 < t1 - t0 := sub_pos.mpr h01
  have key : (y0 + (y1 - y0) * (s - t0) / (t1 - t0))
      - (y0 + (y1 - y0) * (t - t0) / (t1 - t0)) = (y0 - y1) * ((t - s) / (t1 - t0)) := by
    field_simp
    ring
  have h1 : 0 ≤ (y0 - y1) * ((t - s) / (t1 - t0)) :=
    mul_nonneg (by linarith) (div_nonneg (by linarith) hh.le)
  linarith [key, h1]

lemma affine_bounds (y0 y1 t0 t1 t : ℝ) (h01 : t0 < t1) (hy : y1 ≤ y0)
    (ht0 : t0 ≤ t) (ht1 : t ≤ t1) :
    y1 ≤ y0 + (y1 - y0) * (t - t0) / (t1 - t0) ∧ y0 + (y1 - y0) * (t - t0) / (t1 - t0) ≤ y0 := by
  have hh : 0 < t1 - t0 := sub_pos.mpr h01
  have key1 : y0 + (y1 - y0) * (t - t0) / (t1 - t0) - y1 = (y0 - y1) * ((t1 - t) / (t1 - t0)) := by
    field_simp
    ring
  have key2 : y0 - (y0 + (y1 - y0) * (t - t0) / (t1 - t0)) = (y0 - y1) * ((t - t0) / (t1 - t0)) := by
    field_simp
    ring
  have h1 : 0 ≤ (y0 - y1) * ((t1 - t) / (t1 - t0)) :=
    mul_nonneg (by linarith) (div_nonneg (by linarith) hh.le)
  have h2 : 0 ≤ (y0 - y1) * ((t - t0) / (t1 - t0)) :=
    mul_nonneg (by linarith) (div_nonneg (by linarith) hh.le)
  constructor
  · linarith [key1, h1]
  · linarith [key2, h2]

lemma interpPair_linear_eq (a b : ℝ × ℝ × ℝ) (t : ℝ) :
    interpPair InterpMethod.linear a b t
      = a.2.1 + (b.2.1 - a.2.1) * (t - a.1) / (b.1 - a.1) := rfl

lemma interpPair_log_eq (a b : ℝ × ℝ × ℝ) (t : ℝ) :
    interpPair InterpMethod.logLinear a b t
      = Real.exp (Real.log a.2.1
          + (Real.log b.2.1 - Real.log a.2.1) * (t - a.1) / (b.1 - a.1)) := rfl

lemma interpPair_right (m : InterpMethod)
    (hm : m = InterpMethod.linear ∨ m = InterpMethod.logLinear)
    (a b : ℝ × ℝ × ℝ) (hab : a.1 < b.1) (hbpos : 0 < b.2.1) :
    interpPair m a b b.1 = b.2.1 := by
  have hd : b.1 - a.1 ≠ 0 := sub_ne_zero.mpr (ne_of_gt hab)
  rcases hm with hm | hm <;> subst hm
  · rw [interpPair_linear_eq, mul_div_assoc, div_self hd, mul_one]
    ring
  · rw [interpPair_log_eq, mul_div_assoc, div_self hd, mul_one]
    have harg : Real.log a.2.1 + (Real.log b.2.1 - Real.log a.2.1) = Real.log b.2.1 := by
      ring
    rw [harg, Real.exp_log hbpos]

lemma interpPair_mono_ll (m : InterpMethod)
    (hm : m = InterpMethod.linear ∨ m = InterpMethod.logLinear)
    (a b : ℝ × ℝ × ℝ) (s t : ℝ) (hapos : 0 < a.2.1) (hbpos : 0 < b.2.1)
    (hy : b.2.1 ≤ a.2.1) (hab : a.1 < b.1) (hst : s ≤ t) :
    interpPair m a b t ≤ interpPair m a b s := by
  rcases hm with hm | hm <;> subst hm
  · rw [interpPair_linear_eq, interpPair_linear_eq]
    exact affine_mono _ _ _ _ _ _ hab hy hst
  · rw [interpPair_log_eq, interpPair_log_eq]
    exact Real.exp_le_exp.mpr
      (affine_mono _ _ _ _ _ _ hab (Real.log_le_log hbpos hy) hst)

lemma interpPair_bounds_ll (m : InterpMethod)
    (hm : m = InterpMethod.linear ∨ m = InterpMethod.logLinear)
    (a b : ℝ × ℝ × ℝ) (t : ℝ) (hapos : 0 < a.2.1) (hbpos : 0 < b.2.1)
    (hy : b.2.1 ≤ a.2.1) (hab : a.1 < b.1) (hta : a.1 ≤ t) (htb : t ≤ b.1) :
    b.2.1 ≤ interpPair m a b t ∧ interpPair m a b t ≤ a.2.1 := by
  rcases hm with hm | hm <;> subst hm
  · rw [interpPair_linear_eq]
    exact affine_bounds _ _ _ _ _ hab hy hta htb
  · rw [interpPair_log_eq]
    obtain ⟨h1, h2⟩ := affine_bounds (Real.log a.2.1) (Real.log b.2.1) a.1 b.1 t hab
      (Real.log_le_log hbpos hy) hta htb
    constructor
    · exact le_trans (le_of_eq (Real.exp_log hbpos).symm) (Real.exp_le_exp.mpr h1)
    · exact le_trans (Real.exp_le_exp.mpr h2) (le_of_eq (Real.exp_log hapos))

lemma chain_map_triple (l : List (ℝ × ℝ)) (p : ℝ × ℝ)
    (h : List.Chain (fun a b : ℝ × ℝ => a.1 < b.1 ∧ b.2 ≤ a.2 ∧ 0 < b.2) p l) :
    List.Chain knotStep (p.1, p.2, (0 : ℝ)) (l.map fun k => (k.1, k.2, (0 : ℝ))) := by
  induction h with
  | nil => exact List.Chain.nil
  | cons hR _ ih => exact List.Chain.cons ⟨hR.1, hR.2.1, hR.2.2⟩ ih

lemma curveEval_bounds (m : InterpMethod)
    (hm : m = InterpMethod.linear ∨ m = InterpMethod.logLinear) :
    ∀ (l : List (ℝ × ℝ × ℝ)) (p : ℝ × ℝ × ℝ), List.Chain knotStep p l → prevOk p →
      ∀ t, p.1 < t → 0 < curveEval m p t l ∧ curveEval m p t l ≤ p.2.1 := by
  intro l
  induction l with
  | nil =>
    intro p _ hp t ht
    rw [curveEval_nil]
    obtain ⟨hppos, hple, hpnn, hpzero⟩ := hp
    by_cases hp1 : p.1 = 0
    · rw [hp1, hpzero hp1]
      simp [Real.log_one]
    · have hp1' : 0 < p.1 := lt_of_le_of_ne hpnn (Ne.symm hp1)
      have hr : 0 ≤ -Real.log p.2.1 / p.1 :=
        div_nonneg (neg_nonneg.mpr (Real.log_nonpos hppos.le hple)) hp1'.le
      refine ⟨Real.exp_pos _, ?_⟩
      have h1 : -(-Real.log p.2.1 / p.1) * t ≤ -(-Real.log p.2.1 / p.1) * p.1 :=
        mul_le_mul_of_nonpos_left (le_of_lt ht) (neg_nonpos.mpr hr)
      have h2 : -(-Real.log p.2.1 / p.1) * p.1 = Real.log p.2.1 := by
        field_simp
      exact le_trans (Real.exp_le_exp.mpr (by linarith)) (le_of_eq (Real.exp_log hppos))
  | cons k rest ih =>
    intro p hchain hp t ht
    obtain ⟨hstep, hchain'⟩ := List.chain_cons.mp hchain
    obtain ⟨hk1, hky, hkpos⟩ := hstep
    have hk1pos : 0 < k.1 := lt_of_le_of_lt hp.2.2.1 hk1
    have hkOk : prevOk k :=
      ⟨hkpos, le_trans hky hp.2.1, hk1pos.le, fun h => absurd h (ne_of_gt hk1pos)⟩
    rw [curveEval_cons]
    by_cases he : t = k.1
    · rw [if_pos he]
      exact ⟨hkpos, hky⟩
    · rw [if_neg he]
      by_cases hlt : t < k.1
      · rw [if_pos hlt]
        obtain ⟨hb1, hb2⟩ := interpPair_bounds_ll m hm p k t hp.1 hkpos hky hk1
          (le_of_lt ht) (le_of_lt hlt)
        exact ⟨lt_of_lt_of_le hkpos hb1, hb2⟩
      · rw [if_neg hlt]
        have ht' : k.1 < t := lt_of_le_of_ne (not_lt.mp hlt) (Ne.symm he)
        obtain ⟨h1, h2⟩ := ih k hchain' hkOk t ht'
        exact ⟨h1, le_trans h2 hky⟩

lemma curveEval_antitone (m : InterpMethod)
    (hm : m = InterpMethod.linear ∨ m = InterpMethod.logLinear) :
    ∀ (l : List (ℝ × ℝ × ℝ)) (p : ℝ × ℝ × ℝ), List.Chain knotStep p l → prevOk p →
      ∀ t₁ t₂, p.1 < t₁ → t₁ ≤ t₂ → curveEval m p t₂ l ≤ curveEval m p t₁ l := by
  intro l
  induction l with
  | nil =>
    intro p _ hp t₁ t₂ ht1 h12
    rw [curveEval_nil, curveEval_nil]
    obtain ⟨hppos, hple, hpnn, hpzero⟩ := hp
    by_cases hp1 : p.1 = 0
    · rw [hp1, hpzero hp1]
      simp [Real.log_one]
    · have hp1' : 0 < p.1 := lt_of_le_of_ne hpnn (Ne.symm hp1)
      have hr : 0 ≤ -Real.log p.2.1 / p.1 :=
        div_nonneg (neg_nonneg.mpr (Real.log_nonpos hppos.le hple)) hp1'.le
      exact Real.exp_le_exp.mpr (mul_le_mul_of_nonpos_left h12 (neg_nonpos.mpr hr))
  | cons k rest ih =>
    intro p hchain hp t₁ t₂ ht1 h12
    obtain ⟨hstep, hchain'⟩ := List.chain_cons.mp hchain
    obtain ⟨hk1, hky, hkpos⟩ := hstep
    have hk1pos : 0 < k.1 := lt_of_le_of_lt hp.2.2.1 hk1
    have hkOk : prevOk k :=
      ⟨hkpos, le_trans hky hp.2.1, hk1pos.le, fun h => absurd h (ne_of_gt hk1pos)⟩
    have hseg : ∀ s, p.1 < s → s ≤ k.1 →
        curveEval m p s (k :: rest) = interpPair m p k s := by
      intro s _ hs2
      rw [curveEval_cons]
      rcases eq_or_lt_of_le hs2 with he | hl
      · rw [if_pos he, he]
        exact (interpPair_right m hm p k hk1 hkpos).symm
      · rw [if_neg (ne_of_lt hl), if_pos hl]
    by_cases h2k : t₂ ≤ k.1
    · rw [hseg t₁ ht1 (le_trans h12 h2k), hseg t₂ (lt_of_lt_of_le ht1 h12) h2k]
      exact interpPair_mono_ll m hm p k t₁ t₂ hp.1 hkpos hky hk1 h12
    · push_neg at h2k
      by_cases h1k : t₁ ≤ k.1
      · have hv1 : k.2.1 ≤ curveEval m p t₁ (k :: rest) := by
          rw [hseg t₁ ht1 h1k]
          exact (interpPair_bounds_ll m hm p k t₁ hp.1 hkpos hky hk1
            (le_of_lt ht1) h1k).1
        have hv2 : curveEval m p t₂ (k :: rest) ≤ k.2.1 := by
          rw [curveEval_cons, if_neg (ne_of_gt h2k), if_neg (not_lt.mpr (le_of_lt h2k))]
          exact (curveEval_bounds m hm rest k hchain' hkOk t₂ h2k).2
        linarith
      · push_neg at h1k
        have hv1 : curveEval m p t₁ (k :: rest) = curveEval m k t₁ rest := by
          rw [curveEval_cons, if_neg (ne_of_gt h1k), if_neg (not_lt.mpr (le_of_lt h1k))]
        have hv2 : curveEval m p t₂ (k :: rest) = curveEval m k t₂ rest := by
          have h2k' : k.1 < t₂ := lt_of_lt_of_le h1k h12
          rw [curveEval_cons, if_neg (ne_of_gt h2k'), if_neg (not_lt.mpr (le_of_lt h2k'))]
        rw [hv1, hv2]
        exact ih k hchain' hkOk t₁ t₂ h1k h12

/-- C7 (amended): for every curve whose knot discount factors are positive,
at most 1 and non-increasing with strictly increasing positive maturities,
the linear and log-linear methods give a discount factor that is monotone
non-increasing and positive over the whole queried range [0, ∞); the cubic
spline method is excluded (it can overshoot — see the counterexample). -/
theorem discountFactorMonotone (c : ZeroCouponCurve)
    (hm : c.method = InterpMethod.linear ∨ c.method = InterpMethod.logLinear)
    (hne : c.knots ≠ [])
    (hchain : List.Chain (fun a b : ℝ × ℝ => a.1 < b.1 ∧ b.2 ≤ a.2 ∧ 0 < b.2)
      ((0 : ℝ), (1 : ℝ)) c.knots) :
    ∀ t₁ t₂, 0 ≤ t₁ → t₁ ≤ t₂ →
      ∃ a b, discountFactor c t₁ = Except.ok a ∧ discountFactor c t₂ = Except.ok b
        ∧ b ≤ a ∧ 0 < b ∧ a ≤ 1 := by
  have hnemp : c.knots.isEmpty = false := by
    simp [List.isEmpty_eq_false, hne]
  have hncu : c.method ≠ InterpMethod.cubic := by
    rcases hm with h | h <;> · rw [h]; intro hcon; exact InterpMethod.noConfusion hcon
  have htr := knotTriples_noncubic c hncu
  have hchainT : List.Chain knotStep ((0 : ℝ), (1 : ℝ), (0 : ℝ))
      (c.knots.map fun k => (k.1, k.2, (0 : ℝ))) :=
    chain_map_triple c.knots ((0 : ℝ), (1 : ℝ)) hchain
  have hp0 : prevOk ((0 : ℝ), (1 : ℝ), (0 : ℝ)) :=
    ⟨one_pos, le_rfl, le_rfl, fun _ => rfl⟩
  have hdf0 : discountFactor c 0 = Except.ok 1 := by
    unfold discountFactor
    rw [hnemp]
    norm_num
  have hval : ∀ t, 0 < t → discountFactor c t
      = Except.ok (curveEval c.method ((0 : ℝ), (1 : ℝ), (0 : ℝ)) t
          (c.knots.map fun k => (k.1, k.2, (0 : ℝ)))) := by
    intro t ht
    unfold discountFactor
    rw [hnemp]
    simp only [Bool.false_eq_true, if_false]
    rw [if_neg (not_lt.mpr ht.le), if_neg (ne_of_gt ht), htr]
  intro t₁ t₂ h1 h12
  rcases eq_or_lt_of_le h1 with he1 | ht1pos
  · rcases eq_or_lt_of_le (le_trans h1 h12) with he2 | ht2pos
    · exact ⟨1, 1, he1 ▸ hdf0, he2 ▸ hdf0, le_rfl, one_pos, le_rfl⟩
    · obtain ⟨hb1, hb2⟩ := curveEval_bounds c.method hm _ _ hchainT hp0 t₂ ht2pos
      exact ⟨1, _, he1 ▸ hdf0, hval t₂ ht2pos, hb2, hb1, le_rfl⟩
  · have ht2pos : 0 < t₂ := lt_of_lt_of_le ht1pos h12
    obtain ⟨hb1, hb2⟩ := curveEval_bounds c.method hm _ _ hchainT hp0 t₂ ht2pos
    obtain ⟨ha1, ha2⟩ := curveEval_bounds c.method hm _ _ hchainT hp0 t₁ ht1pos
    exact ⟨_, _, hval t₁ ht1pos, hval t₂ ht2pos,
      curveEval_antitone c.method hm _ _ hchainT hp0 t₁ t₂ ht1pos h12, hb1, ha2⟩

/-- Witness for the amended C7: the three-knot linear curve
(1y, 0.95), (2y, 0.90), (3y, 0.85), queried at 1.5 and 2.5. -/
theorem discountFactorMonotone_witness :
    ∃ a b,
      discountFactor ⟨[(1, 95 / 100), (2, 90 / 100), (3, 85 / 100)], InterpMethod.linear⟩
          (3 / 2) = Except.ok a
      ∧ discountFactor ⟨[(1, 95 / 100), (2, 90 / 100), (3, 85 / 100)], InterpMethod.linear⟩
          (5 / 2) = Except.ok b
      ∧ b ≤ a ∧ 0 < b ∧ a ≤ 1 :=
  discountFactorMonotone
    ⟨[(1, 95 / 100), (2, 90 / 100), (3, 85 / 100)], InterpMethod.linear⟩
    (Or.inl rfl) (by simp)
    (by norm_num [List.chain_cons])
    (3 / 2) (5 / 2) (by norm_num) (by norm_num)

/-- C7 counterexample: under cubic (natural spline) interpolation the knot set
(1y, 0.99), (2y, 0.98), (3y, 0.50) — strictly decreasing discount factors —
yields DF(1.1) = 0.99605 > DF(1.0) = 0.99, so the discount factor is not
monotone non-increasing for the cubic method. -/
theorem cubicNotMonotone :
    discountFactor ⟨[(1, 99 / 100), (2, 98 / 100), (3, 1 / 2)], InterpMethod.cubic⟩ 1
        = Except.ok (99 / 100)
      ∧ discountFactor ⟨[(1, 99 / 100), (2, 98 / 100), (3, 1 / 2)], InterpMethod.cubic⟩
          (11 / 10) = Except.ok (19921 / 20000)
      ∧ (99 / 100 : ℝ) < 19921 / 20000 := by
  have hrows2 : ∀ a b : ℝ × ℝ, splineRows [a, b] = [] := by
    intro a b
    simp [splineRows]
  have htr : knotTriples ⟨[(1, 99 / 100), (2, 98 / 100), (3, 1 / 2)], InterpMethod.cubic⟩
      = [((0 : ℝ), (1 : ℝ), (0 : ℝ)), (1, 99 / 100, 47 / 250),
         (2, 98 / 100, -(94 / 125)), (3, 1 / 2, 0)] := by
    norm_num [knotTriples, splineMs, splineRows, hrows2, thomasSolve, thomasFwd,
      thomasBackAux]
  refine ⟨?_, ?_, by norm_num⟩
  · unfold discountFactor
    rw [htr]
    norm_num [curveEval_cons]
  · unfold discountFactor
    rw [htr]
    norm_num [curveEval_cons, interpPair]

lemma crrSpots_length (S u d : ℝ) (k : Nat) : (crrSpots S u d k).length = k + 1 := by
  simp [crrSpots]

lemma crrSpots_getElem (S u d : ℝ) (k i : Nat) (h : i < (crrSpots S u d k).length) :
    (crrSpots S u d k)[i] = S * u ^ i * d ^ (k - i) := by
  simp [crrSpots]

lemma stepCont_length (disc p : ℝ) (v : List ℝ) :
    (stepCont disc p v).length = v.length - 1 := by
  simp only [stepCont, List.length_zipWith, List.length_tail]
  omega

lemma crrValues_zero (am ic : Bool) (S K u d p disc : ℝ) (n : Nat) :
    crrValues am ic S K u d p disc n 0 = (crrSpots S u d n).map (payoff ic K) := rfl

lemma crrValues_succ (am ic : Bool) (S K u d p disc : ℝ) (n j : Nat) :
    crrValues am ic S K u d p disc n (j + 1)
      = if am then
          List.zipWith max ((crrSpots S u d (n - (j + 1))).map (payoff ic K))
            (stepCont disc p (crrValues am ic S K u d p disc n j))
        else stepCont disc p (crrValues am ic S K u d p disc n j) := rfl

lemma crrValues_length (am ic : Bool) (S K u d p disc : ℝ) (n : Nat) :
    ∀ j, j ≤ n → (crrValues am ic S K u d p disc n j).length = n + 1 - j := by
  intro j
  induction j with
  | zero =>
    intro _
    rw [crrValues_zero, List.length_map, crrSpots_length]
    omega
  | succ i ih =>
    intro h
    have hi : i ≤ n := Nat.le_of_succ_le h
    rw [crrValues_succ]
    cases am with
    | false =>
      simp only [Bool.false_eq_true, if_false, stepCont_length, ih hi]
      omega
    | true =>
      simp only [if_true, List.length_zipWith, List.length_map, crrSpots_length,
        stepCont_length, ih hi]
      omega

lemma forall₂_le_trans {l₁ l₂ l₃ : List ℝ}
    (h₁ : List.Forall₂ (· ≤ ·) l₁ l₂) (h₂ : List.Forall₂ (· ≤ ·) l₂ l₃) :
    List.Forall₂ (· ≤ ·) l₁ l₃ := by
  induction h₁ generalizing l₃ with
  | nil =>
    cases h₂
    exact List.Forall₂.nil
  | cons hab _ ih =>
    cases h₂ with
    | cons hbc htail => exact List.Forall₂.cons (le_trans hab hbc) (ih htail)

lemma forall₂_stepCont (disc p : ℝ) (hdisc : 0 ≤ disc) (hp0 : 0 ≤ p) (hp1 : p ≤ 1)
    (v w : List ℝ) (h : List.Forall₂ (· ≤ ·) v w) :
    List.Forall₂ (· ≤ ·) (stepCont disc p v) (stepCont disc p w) := by
  rw [List.forall₂_iff_get] at h ⊢
  obtain ⟨hlen, hget⟩ := h
  refine ⟨by simp [stepCont_length, hlen], ?_⟩
  intro i h₁ h₂
  simp only [List.get_eq_getElem, stepCont, List.getElem_zipWith, List.getElem_tail]
  have hv : i < v.length - 1 := by
    simpa [stepCont_length] using h₁
  have h1 := hget i (by omega) (by omega)
  have h2 := hget (i + 1) (by omega) (by omega)
  simp only [List.get_eq_getElem] at h1 h2
  have ha := mul_le_mul_of_nonneg_left h1 (by linarith : (0 : ℝ) ≤ 1 - p)
  have hb := mul_le_mul_of_nonneg_left h2 hp0
  exact mul_le_mul_of_nonneg_left (by linarith) hdisc

lemma forall₂_le_zipWith_max (e v : List ℝ) :
    List.Forall₂ (· ≤ ·) v (List.zipWith max e v) ∨ v.length ≠ e.length := by
  by_cases hlen : v.length = e.length
  · left
    rw [List.forall₂_iff_get]
    refine ⟨by simp [hlen], ?_⟩
    intro i h₁ h₂
    simp only [List.get_eq_getElem, List.getElem_zipWith]
    exact le_max_right _ _
  · right
    exact hlen

lemma crrValues_eu_le_am (ic : Bool) (S K u d p disc : ℝ) (n : Nat)
    (hdisc : 0 ≤ disc) (hp0 : 0 ≤ p) (hp1 : p ≤ 1) :
    ∀ j, j ≤ n → List.Forall₂ (· ≤ ·) (crrValues false ic S K u d p disc n j)
      (crrValues true ic S K u d p disc n j) := by
  intro j
  induction j with
  | zero =>
    intro _
    rw [crrValues_zero, crrValues_zero]
    exact List.forall₂_same.mpr fun x _ => le_rfl
  | succ i ih =>
    intro h
    have hi : i ≤ n := Nat.le_of_succ_le h
    rw [crrValues_succ, crrValues_succ]
    simp only [if_true, Bool.false_eq_true, if_false]
    have h1 := forall₂_stepCont disc p hdisc hp0 hp1 _ _ (ih hi)
    have h2 := forall₂_le_zipWith_max
      ((crrSpots S u d (n - (i + 1))).map (payoff ic K))
      (stepCont disc p (crrValues true ic S K u d p disc n i))
    rcases h2 with h2 | h2
    · exact forall₂_le_trans h1 h2
    · exfalso
      apply h2
      rw [stepCont_length, crrValues_length true ic S K u d p disc n i hi,
        List.length_map, crrSpots_length]
      omega

lemma forall₂_headD (l₁ l₂ : List ℝ) (h : List.Forall₂ (· ≤ ·) l₁ l₂) (hne : l₁ ≠ []) :
    l₁.headD 0 ≤ l₂.headD 0 := by
  cases h with
  | nil => exact absurd rfl hne
  | cons hR _ => simpa using hR

lemma payoff_call_node (K s u d p disc : ℝ) (hs : 0 ≤ s) (hK : 0 ≤ K)
    (hdisc0 : 0 ≤ disc) (hdisc1 : disc ≤ 1) (hp0 : 0 ≤ p) (hp1 : p ≤ 1)
    (hmart : 1 ≤ disc * ((1 - p) * d + p * u)) :
    max (s - K) 0 ≤ disc * ((1 - p) * max (s * d - K) 0 + p * max (s * u - K) 0) := by
  have hA : disc * ((1 - p) * (s * d - K) + p * (s * u - K))
      ≤ disc * ((1 - p) * max (s * d - K) 0 + p * max (s * u - K) 0) := by
    have h1 := mul_le_mul_of_nonneg_left (le_max_left (s * d - K) 0)
      (by linarith : (0 : ℝ) ≤ 1 - p)
    have h2 := mul_le_mul_of_nonneg_left (le_max_left (s * u - K) 0) hp0
    exact mul_le_mul_of_nonneg_left (by linarith) hdisc0
  have hB : disc * ((1 - p) * (s * d - K) + p * (s * u - K))
      = s * (disc * ((1 - p) * d + p * u)) - disc * K := by ring
  have hC : s ≤ s * (disc * ((1 - p) * d + p * u)) := by
    calc s = s * 1 := (mul_one s).symm
      _ ≤ s * (disc * ((1 - p) * d + p * u)) := mul_le_mul_of_nonneg_left hmart hs
  have hD : disc * K ≤ K := by nlinarith
  have hm1 : (0 : ℝ) ≤ max (s * d - K) 0 := le_max_right _ _
  have hm2 : (0 : ℝ) ≤ max (s * u - K) 0 := le_max_right _ _
  have hn1 : (0 : ℝ) ≤ (1 - p) * max (s * d - K) 0 := mul_nonneg (by linarith) hm1
  have hn2 : (0 : ℝ) ≤ p * max (s * u - K) 0 := mul_nonneg hp0 hm2
  have hRnn : 0 ≤ disc * ((1 - p) * max (s * d - K) 0 + p * max (s * u - K) 0) :=
    mul_nonneg hdisc0 (by linarith)
  apply max_le _ hRnn
  linarith [hA, hB, hC, hD]

lemma crrValues_eu_call_ge_payoff (S K u d p disc : ℝ) (n : Nat)
    (hS : 0 ≤ S) (hK : 0 ≤ K) (hu : 0 ≤ u) (hd : 0 ≤ d)
    (hdisc0 : 0 ≤ disc) (hdisc1 : disc ≤ 1) (hp0 : 0 ≤ p) (hp1 : p ≤ 1)
    (hmart : 1 ≤ disc * ((1 - p) * d + p * u)) :
    ∀ j, j ≤ n → List.Forall₂ (fun s v => max (s - K) 0 ≤ v)
      (crrSpots S u d (n - j)) (crrValues false true S K u d p disc n j) := by
  intro j
  induction j with
  | zero =>
    intro _
    rw [crrValues_zero, Nat.sub_zero, List.forall₂_iff_get]
    refine ⟨by simp, ?_⟩
    intro i h₁ h₂
    simp [payoff]
  | succ i ih =>
    intro h
    have hi : i ≤ n := Nat.le_of_succ_le h
    have IH := ih hi
    rw [List.forall₂_iff_get] at IH
    obtain ⟨hlenIH, hgetIH⟩ := IH
    have hlenV : (crrValues false true S K u d p disc n i).length = n + 1 - i :=
      crrValues_length false true S K u d p disc n i hi
    rw [crrValues_succ]
    simp only [Bool.false_eq_true, if_false]
    rw [List.forall₂_iff_get]
    refine ⟨?_, ?_⟩
    · rw [crrSpots_length, stepCont_length, hlenV]
      omega
    · intro idx h₁ h₂
      have hidx : idx < n - i := by
        rw [crrSpots_length] at h₁
        omega
      simp only [List.get_eq_getElem]
      rw [crrSpots_getElem]
      simp only [stepCont, List.getElem_zipWith, List.getElem_tail]
      have hIH1 := hgetIH idx (by rw [crrSpots_length]; omega) (by omega)
      have hIH2 := hgetIH (idx + 1) (by rw [crrSpots_length]; omega) (by omega)
      simp only [List.get_eq_getElem] at hIH1 hIH2
      rw [crrSpots_getElem] at hIH1 hIH2
      have hs0 : 0 ≤ S * u ^ idx * d ^ (n - (i + 1) - idx) :=
        mul_nonneg (mul_nonneg hS (pow_nonneg hu _)) (pow_nonneg hd _)
      have e1 : S * u ^ idx * d ^ (n - i - idx)
          = S * u ^ idx * d ^ (n - (i + 1) - idx) * d := by
        rw [show n - i - idx = n - (i + 1) - idx + 1 by omega, pow_succ]
        ring
      have e2 : S * u ^ (idx + 1) * d ^ (n - i - (idx + 1))
          = S * u ^ idx * d ^ (n - (i + 1) - idx) * u := by
        rw [show n - i - (idx + 1) = n - (i + 1) - idx by omega, pow_succ]
        ring
      rw [e1] at hIH1
      rw [e2] at hIH2
      calc max (S * u ^ idx * d ^ (n - (i + 1) - idx) - K) 0
          ≤ disc * ((1 - p) * max (S * u ^ idx * d ^ (n - (i + 1) - idx) * d - K) 0
              + p * max (S * u ^ idx * d ^ (n - (i + 1) - idx) * u - K) 0) :=
            payoff_call_node K _ u d p disc hs0 hK hdisc0 hdisc1 hp0 hp1 hmart
        _ ≤ _ := by
            have ha := mul_le_mul_of_nonneg_left hIH1 (by linarith : (0 : ℝ) ≤ 1 - p)
            have hb := mul_le_mul_of_nonneg_left hIH2 hp0
            exact mul_le_mul_of_nonneg_left (by linarith) hdisc0

lemma zipWith_max_eq_of_forall₂ (e v : List ℝ) (hlen : e.length = v.length)
    (h : List.Forall₂ (· ≤ ·) e v) : List.zipWith max e v = v := by
  apply List.ext_getElem
  · simp [hlen]
  · intro i h₁ h₂
    rw [List.getElem_zipWith]
    rw [List.forall₂_iff_get] at h
    have := h.2 i (by omega) (by omega)
    simp only [List.get_eq_getElem] at this
    exact max_eq_right this

lemma crrValues_am_eq_eu_call (S K u d p disc : ℝ) (n : Nat)
    (hS : 0 ≤ S) (hK : 0 ≤ K) (hu : 0 ≤ u) (hd : 0 ≤ d)
    (hdisc0 : 0 ≤ disc) (hdisc1 : disc ≤ 1) (hp0 : 0 ≤ p) (hp1 : p ≤ 1)
    (hmart : 1 ≤ disc * ((1 - p) * d + p * u)) :
    ∀ j, j ≤ n → crrValues true true S K u d p disc n j
      = crrValues false true S K u d p disc n j := by
  intro j
  induction j with
  | zero => intro _; rfl
  | succ i ih =>
    intro h
    have hi : i ≤ n := Nat.le_of_succ_le h
    rw [crrValues_succ, crrValues_succ, ih hi]
    simp only [if_true, Bool.false_eq_true, if_false]
    have hinv := crrValues_eu_call_ge_payoff S K u d p disc n hS hK hu hd
      hdisc0 hdisc1 hp0 hp1 hmart (i + 1) h
    rw [crrValues_succ] at hinv
    simp only [Bool.false_eq_true, if_false] at hinv
    apply zipWith_max_eq_of_forall₂
    · rw [List.length_map, crrSpots_length, stepCont_length,
        crrValues_length false true S K u d p disc n i hi]
      omega
    · rw [List.forall₂_iff_get] at hinv ⊢
      obtain ⟨hl, hg⟩ := hinv
      refine ⟨by simpa using hl, ?_⟩
      intro i2 h₁ h₂
      have hx := hg i2 (by simpa using h₁) h₂
      simp only [List.get_eq_getElem, List.getElem_map] at hx ⊢
      simpa [payoff] using hx

/-- C3 (amended): on the same CRR tree with the same step count, whenever the
risk-neutral probability p lies in [0, 1], the American put value dominates
the European put value; and for calls with dividend_yield = 0, r ≥ 0 and a
non-degenerate tree, the American value equals the European value exactly
(early exercise is never optimal for non-dividend calls). -/
theorem binomialAmericanVsEuropean (S K T r σ q : ℝ) (n : Nat)
    (hp0 : 0 ≤ crrP r q σ T n) (hp1 : crrP r q σ T n ≤ 1) :
    binomPrice false false S K T r σ q n ≤ binomPrice true false S K T r σ q n ∧
    (q = 0 → 0 ≤ r → 0 ≤ T → 0 ≤ S → 0 ≤ K → crrD σ T n < crrU σ T n →
      binomPrice true true S K T r σ q n = binomPrice false true S K T r σ q n) := by
  constructor
  · unfold binomPrice
    apply forall₂_headD
    · exact crrValues_eu_le_am false S K (crrU σ T n) (crrD σ T n) (crrP r q σ T n)
        (crrDisc r T n) n (Real.exp_pos _).le hp0 hp1 n le_rfl
    · have hlen := crrValues_length false false S K (crrU σ T n) (crrD σ T n)
        (crrP r q σ T n) (crrDisc r T n) n n le_rfl
      intro hnil
      rw [hnil] at hlen
      simp at hlen
  · intro hq hr hT hS hK hud
    subst hq
    have hdt : 0 ≤ crrDt T n := div_nonneg hT (Nat.cast_nonneg n)
    have hdisc1 : crrDisc r T n ≤ 1 := by
      unfold crrDisc
      calc Real.exp (-(r * crrDt T n)) ≤ Real.exp 0 :=
          Real.exp_le_exp.mpr (by nlinarith [mul_nonneg hr hdt])
        _ = 1 := Real.exp_zero
    have hudne : crrU σ T n - crrD σ T n ≠ 0 := sub_ne_zero.mpr (ne_of_gt hud)
    have hmart : 1 ≤ crrDisc r T n * ((1 - crrP r 0 σ T n) * crrD σ T n
        + crrP r 0 σ T n * crrU σ T n) := by
      have hsum : (1 - crrP r 0 σ T n) * crrD σ T n + crrP r 0 σ T n * crrU σ T n
          = Real.exp ((r - 0) * crrDt T n) := by
        unfold crrP
        field_simp
        ring
      rw [hsum]
      unfold crrDisc
      rw [← Real.exp_add, show -(r * crrDt T n) + (r - 0) * crrDt T n = 0 by ring,
        Real.exp_zero]
    have hdnn : 0 ≤ crrD σ T n := by
      have hU : 0 < crrU σ T n := Real.exp_pos _
      unfold crrD
      exact div_nonneg zero_le_one hU.le
    unfold binomPrice
    rw [crrValues_am_eq_eu_call S K (crrU σ T n) (crrD σ T n) (crrP r 0 σ T n)
      (crrDisc r T n) n hS hK (Real.exp_pos _).le hdnn (Real.exp_pos _).le hdisc1
      hp0 hp1 hmart n le_rfl]

lemma crrDt_12 : crrDt 1 2 = 1 / 2 := by
  norm_num [crrDt]

lemma crrU_gt_one_12 : 1 < crrU (1 / 5) 1 2 := by
  rw [crrU, crrDt_12]
  apply Real.one_lt_exp_iff.mpr
  positivity

lemma crrD_lt_one_12 : crrD (1 / 5) 1 2 < 1 := by
  rw [crrD]
  rw [div_lt_one (lt_trans one_pos crrU_gt_one_12)]
  exact crrU_gt_one_12

lemma crrD_pos_12 : 0 < crrD (1 / 5) 1 2 := by
  rw [crrD]
  have := crrU_gt_one_12
  positivity

lemma crrP_eq_12 : crrP 0 0 (1 / 5) 1 2
    = (1 - crrD (1 / 5) 1 2) / (crrU (1 / 5) 1 2 - crrD (1 / 5) 1 2) := by
  rw [crrP, show ((0 : ℝ) - 0) * crrDt 1 2 = 0 by ring, Real.exp_zero]

lemma crrP_nonneg_12 : 0 ≤ crrP 0 0 (1 / 5) 1 2 := by
  rw [crrP_eq_12]
  apply div_nonneg
  · linarith [crrD_lt_one_12]
  · linarith [crrD_lt_one_12, crrU_gt_one_12]

lemma crrP_le_one_12 : crrP 0 0 (1 / 5) 1 2 ≤ 1 := by
  rw [crrP_eq_12]
  rw [div_le_one (by linarith [crrD_lt_one_12, crrU_gt_one_12])]
  linarith [crrU_gt_one_12]

/-- Witness for the amended C3 at S=100, K=100, T=1, r=0, σ=0.2, q=0 and a
2-step tree. -/
theorem binomialAmericanVsEuropean_witness :
    binomPrice false false 100 100 1 0 (1 / 5) 0 2
        ≤ binomPrice true false 100 100 1 0 (1 / 5) 0 2
      ∧ binomPrice true true 100 100 1 0 (1 / 5) 0 2
        = binomPrice false true 100 100 1 0 (1 / 5) 0 2 := by
  have h := binomialAmericanVsEuropean 100 100 1 0 (1 / 5) 0 2
    crrP_nonneg_12 crrP_le_one_12
  exact ⟨h.1, h.2 rfl (by norm_num) (by norm_num) (by norm_num) (by norm_num)
    (lt_trans crrD_lt_one_12 crrU_gt_one_12)⟩

lemma binom_put_value_12 :
    binomPrice true false 100 100 1 0 (1 / 5) 0 2
      = 100 * (crrU (1 / 5) 1 2 - 1) / (crrU (1 / 5) 1 2 + 1) := by
  set E := crrU (1 / 5) 1 2 with hE
  have hE1 : 1 < E := crrU_gt_one_12
  have hE0 : 0 < E := lt_trans one_pos hE1
  have hEne : E ≠ 0 := ne_of_gt hE0
  have hiE1 : 1 / E < 1 := by
    rw [div_lt_one hE0]
    exact hE1
  have hiE0 : 0 < 1 / E := by positivity
  have hd_eq : crrD (1 / 5) 1 2 = 1 / E := rfl
  have hD1 : crrDisc 0 1 2 = 1 := by
    rw [crrDisc, show -(0 * crrDt 1 2 : ℝ) = 0 by ring, Real.exp_zero]
  have hP_eq : crrP 0 0 (1 / 5) 1 2 = (1 - 1 / E) / (E - 1 / E) := by
    rw [crrP_eq_12, hd_eq]
  set P := crrP 0 0 (1 / 5) 1 2 with hP
  have hudne : E - 1 / E ≠ 0 := by
    have : 0 < E - 1 / E := by linarith
    exact ne_of_gt this
  have hE2 : (1 : ℝ) ≤ E ^ 2 := by nlinarith
  have hEp1 : E + 1 ≠ 0 := by
    intro hcon
    nlinarith
  have h1P : 1 - P = (E - 1) / (E - 1 / E) := by
    have hstep : ((E - 1 / E) - (1 - 1 / E)) / (E - 1 / E)
        = 1 - (1 - 1 / E) / (E - 1 / E) := by
      rw [sub_div, div_self hudne]
    rw [hP_eq, ← hstep]
    congr 1
    ring
  have hP0 : 0 ≤ P := crrP_nonneg_12
  have hP1 : P ≤ 1 := crrP_le_one_12
  have hv0 : crrValues true false 100 100 E (1 / E) P 1 2 0
      = [100 - 100 * (1 / E) ^ 2, 0, 0] := by
    rw [crrValues_zero]
    simp only [crrSpots, show List.range 3 = [0, 1, 2] from rfl, List.map_cons,
      List.map_nil, payoff, Bool.false_eq_true, if_false]
    norm_num
    refine ⟨?_, ?_, ?_⟩
    · exact inv_le_one hE2
    · rw [mul_assoc, mul_inv_cancel₀ hEne]
      norm_num
    · rw [abs_of_pos hE0]
      exact hE1.le
  have hkey : (1 - P) * (100 - 100 * (1 / E) ^ 2) = 100 - 100 * (1 / E) := by
    rw [h1P, div_mul_eq_mul_div, div_eq_iff hudne]
    field_simp
    ring
  have hexer1 : (crrSpots 100 E (1 / E) 1).map (payoff false 100)
      = [100 - 100 * (1 / E), 0] := by
    simp only [crrSpots, show List.range 2 = [0, 1] from rfl, List.map_cons,
      List.map_nil, payoff, Bool.false_eq_true, if_false]
    norm_num
    constructor
    · exact inv_le_one_of_one_le₀ hE1.le
    · exact hE1.le
  have hcont1 : stepCont 1 P [100 - 100 * (1 / E) ^ 2, (0 : ℝ), 0]
      = [(1 - P) * (100 - 100 * (1 / E) ^ 2), 0] := by
    show [1 * ((1 - P) * (100 - 100 * (1 / E) ^ 2) + P * 0),
      1 * ((1 - P) * 0 + P * 0)] = _
    norm_num
  have hv1 : crrValues true false 100 100 E (1 / E) P 1 2 1 = [100 - 100 * (1 / E), 0] := by
    rw [crrValues_succ, hv0]
    simp only [if_true]
    rw [show (2 - 1 : Nat) = 1 from rfl, hexer1, hcont1, hkey]
    show [max (100 - 100 * (1 / E)) (100 - 100 * (1 / E)), max 0 0] = _
    rw [max_self, max_self]
  have hexer0 : (crrSpots 100 E (1 / E) 0).map (payoff false 100) = [0] := by
    simp only [crrSpots, show List.range 1 = [0] from rfl, List.map_cons,
      List.map_nil, payoff, Bool.false_eq_true, if_false]
    norm_num
  have hcont2 : stepCont 1 P [100 - 100 * (1 / E), (0 : ℝ)]
      = [(1 - P) * (100 - 100 * (1 / E))] := by
    show [1 * ((1 - P) * (100 - 100 * (1 / E)) + P * 0)] = _
    norm_num
  have hkey2 : (1 - P) * (100 - 100 * (1 / E)) = 100 * (E - 1) / (E + 1) := by
    rw [h1P, div_mul_eq_mul_div, div_eq_iff hudne]
    field_simp
    ring
  have hv2 : crrValues true false 100 100 E (1 / E) P 1 2 2
      = [100 * (E - 1) / (E + 1)] := by
    rw [crrValues_succ, hv1]
    simp only [if_true]
    rw [show (2 - 2 : Nat) = 0 from rfl, hexer0, hcont2, hkey2]
    show [max 0 (100 * (E - 1) / (E + 1))] = _
    rw [max_eq_right (div_nonneg (by nlinarith) (by linarith))]
  unfold binomPrice
  rw [← hE, hd_eq, hD1, ← hP, hv2]
  rfl

lemma sqrt_half_le : Real.sqrt (1 / 2) ≤ 14143 / 20000 := by
  rw [show (14143 / 20000 : ℝ) = Real.sqrt ((14143 / 20000) ^ 2) from
    (Real.sqrt_sq (by norm_num)).symm]
  exact Real.sqrt_le_sqrt (by norm_num)

lemma crrU_ub_12 : crrU (1 / 5) 1 2 ≤ 11648 / 10000 := by
  rw [crrU, crrDt_12]
  set y := (1 / 5 : ℝ) * Real.sqrt (1 / 2) with hy
  have hy0 : 0 ≤ y := by positivity
  have hyub : y ≤ 14143 / 100000 := by
    have h := sqrt_half_le
    rw [hy]
    nlinarith
  have hlow : 1 - y ≤ Real.exp (-y) := by
    have := Real.add_one_le_exp (-y)
    linarith
  have hprod : Real.exp y * Real.exp (-y) = 1 := by
    rw [← Real.exp_add]
    simp
  nlinarith [Real.exp_pos y]

lemma normalCdf_zero : normalCdf 0 = 1 / 2 := by
  have h := normalCdf_add_neg 0
  rw [neg_zero] at h
  linarith

lemma normalCdf_tenth_lb : 1 / 2 + 199 / 5020 ≤ normalCdf (1 / 10) := by
  have hsplit : normalCdf (1 / 10)
      = normalCdf 0 + ∫ t in Ioc (0 : ℝ) (1 / 10), normalPdf t := by
    unfold normalCdf
    rw [← Set.Iic_union_Ioc_eq_Iic (show (0 : ℝ) ≤ 1 / 10 by norm_num)]
    rw [setIntegral_union (Set.Iic_disjoint_Ioc le_rfl) measurableSet_Ioc
      integrable_normalPdf.integrableOn integrable_normalPdf.integrableOn]
  have hconst : ∀ t ∈ Ioc (0 : ℝ) (1 / 10), (199 / 502 : ℝ) ≤ normalPdf t := by
    intro t ht
    have ht2 : t ^ 2 ≤ 1 / 100 := by nlinarith [ht.1, ht.2]
    have hsq : Real.sqrt (2 * π) ≤ 251 / 100 := by
      rw [show (251 / 100 : ℝ) = Real.sqrt ((251 / 100) ^ 2) from
        (Real.sqrt_sq (by norm_num)).symm]
      apply Real.sqrt_le_sqrt
      nlinarith [Real.pi_lt_d2]
    have hexp : (199 / 200 : ℝ) ≤ Real.exp (-t ^ 2 / 2) := by
      have h1 := Real.add_one_le_exp (-t ^ 2 / 2)
      nlinarith
    unfold normalPdf
    rw [inv_mul_eq_div, le_div_iff₀ sqrt_two_pi_pos]
    calc (199 / 502 : ℝ) * Real.sqrt (2 * π)
        ≤ 199 / 502 * (251 / 100) := by
          apply mul_le_mul_of_nonneg_left hsq
          norm_num
      _ = 199 / 200 := by norm_num
      _ ≤ Real.exp (-t ^ 2 / 2) := hexp
  have hvol : volume (Ioc (0 : ℝ) (1 / 10)) ≠ ⊤ := by
    rw [Real.volume_Ioc]
    exact ENNReal.ofReal_ne_top
  have hint := setIntegral_ge_of_const_le measurableSet_Ioc hvol hconst
    integrable_normalPdf.integrableOn
  rw [Real.volume_Ioc, ENNReal.toReal_ofReal (by norm_num)] at hint
  rw [hsplit, normalCdf_zero]
  calc (1 / 2 + 199 / 5020 : ℝ) = 1 / 2 + 199 / 502 * (1 / 10 - 0) := by norm_num
    _ ≤ 1 / 2 + ∫ t in Ioc (0 : ℝ) (1 / 10), normalPdf t := by linarith

lemma euroPrice_put_12 : euroPrice false 100 100 1 0 (1 / 5) 0
    = 200 * normalCdf (1 / 10) - 100 := by
  unfold euroPrice
  rw [if_neg (by norm_num)]
  simp only [Bool.false_eq_true, if_false]
  have hd1 : bsD1 100 100 1 0 (1 / 5) 0 = 1 / 10 := by
    unfold bsD1
    rw [div_self (show (100 : ℝ) ≠ 0 by norm_num), Real.log_one, Real.sqrt_one]
    norm_num
  have hd2 : bsD2 100 100 1 0 (1 / 5) 0 = -(1 / 10) := by
    rw [bsD2, hd1, Real.sqrt_one]
    norm_num
  rw [hd1, hd2, neg_neg]
  have hneg : normalCdf (-(1 / 10)) = 1 - normalCdf (1 / 10) := by
    have := normalCdf_add_neg (1 / 10 : ℝ)
    linarith
  rw [hneg, show (-(0 * 1 : ℝ)) = 0 by ring, Real.exp_zero]
  ring

/-- C3 counterexample: at S=100, K=100, T=1, r=0, σ=0.2, q=0 with a 2-step
tree, the binomial American put price is strictly below the ANALYTIC European
put price at the same parameters, refuting the original claim that the
binomial American put dominates the analytic European put for every valid
parameter set: the discretization error of a coarse tree exceeds the
early-exercise premium (the tree value is 100(u−1)/(u+1) ≈ 7.06 while the
analytic put is 200·N(0.1) − 100 ≈ 7.97). -/
theorem americanPutBelowAnalyticEuropean :
    binomPrice true false 100 100 1 0 (1 / 5) 0 2
      < euroPrice false 100 100 1 0 (1 / 5) 0 := by
  rw [binom_put_value_12, euroPrice_put_12]
  have hE1 : 1 < crrU (1 / 5) 1 2 := crrU_gt_one_12
  have hub : crrU (1 / 5) 1 2 ≤ 11648 / 10000 := crrU_ub_12
  have hlb := normalCdf_tenth_lb
  set E := crrU (1 / 5) 1 2
  have h1 : 100 * (E - 1) / (E + 1) < 762 / 100 := by
    rw [div_lt_iff (by linarith)]
    linarith
  linarith

end RustQuant
